import Mathlib

/-! # Part 1: Definitions -/

/-!
Verification of the Markdown post-processing scripts of this repository.

Strings are modelled as `List Char`; a text file is the list of its
characters, and line-oriented scripts work on `List (List Char)` (the
result of `readlines` / `split`).  Every scanning loop of the Python
sources is embedded as a structurally recursive function on an explicit
fuel argument; the top-level wrappers instantiate the fuel with the
length of the input, which dominates the number of loop iterations
because every iteration of the corresponding Python loop consumes at
least one character (or one line).
-/

/-- Python's `\s` / `str.isspace` character set: ASCII whitespace,
the C1 separators, NEL, NBSP and the Unicode space characters. -/
def pyIsSpace (c : Char) : Bool :=
  let n := c.toNat
  (0x9 ≤ n && n ≤ 0xD) || n == 0x20 || (0x1C ≤ n && n ≤ 0x1F) || n == 0x85 || n == 0xA0 ||
  n == 0x1680 || (0x2000 ≤ n && n ≤ 0x200A) || n == 0x2028 || n == 0x2029 || n == 0x202F ||
  n == 0x205F || n == 0x3000

/-! ## `replace_br_tags.py`

`main` reads the file and performs the single substitution
`re.sub(r'<br\s*/?\s*>', '\n', content, flags=re.IGNORECASE)`.
The regex engine scans left to right; at a position the pattern matches
iff the text starts with `<`, `b`/`B`, `r`/`R`, then (after greedy
whitespace) an optional `/`, more whitespace and `>`.  The greedy
`\s*` loops are deterministic here because a shorter whitespace run is
always followed by another whitespace character, which can match
neither `/?` nor `>`. -/

/-- Greedily consume a `\s*` prefix. -/
def pySkipSpaces : List Char → List Char
  | [] => []
  | c :: cs => if pyIsSpace c then pySkipSpaces cs else c :: cs

/-- Consume the optional `/` of `/?`. -/
def dropSlash : List Char → List Char
  | [] => []
  | c :: t => if c == '/' then t else c :: t

/-- Require the closing `>`. -/
def expectGt : List Char → Option (List Char)
  | [] => none
  | c :: t => if c == '>' then some t else none

/-- Letter `b` of the tag, case-insensitively (`re.IGNORECASE`). -/
def isBrB (c : Char) : Bool := c == 'b' || c == 'B'

/-- Letter `r` of the tag, case-insensitively (`re.IGNORECASE`). -/
def isBrR (c : Char) : Bool := c == 'r' || c == 'R'

/-- Match `\s*/?\s*>` at the head of the text, returning the remainder. -/
def matchBrTail (cs : List Char) : Option (List Char) :=
  expectGt (pySkipSpaces (dropSlash (pySkipSpaces cs)))

/-- Match `<br\s*/?\s*>` (case-insensitive) at the head of the text. -/
def matchBr : List Char → Option (List Char)
  | a :: c1 :: c2 :: rest =>
    if a == '<' && isBrB c1 && isBrR c2 then matchBrTail rest else none
  | _ => none

/-- One left-to-right pass of `re.sub(r'<br\s*/?\s*>', '\n', ...)`:
each non-overlapping leftmost match is replaced by a newline.  The fuel
bounds the number of scan steps; each step consumes at least one
character. -/
def subBr : Nat → List Char → List Char
  | 0, l => l
  | _ + 1, [] => []
  | f + 1, c :: cs =>
    match matchBr (c :: cs) with
    | some rest => '\n' :: subBr f rest
    | none => c :: subBr f cs

/-- The content transformation performed by `main` of `replace_br_tags.py`. -/
def replace_br_content (s : List Char) : List Char := subBr s.length s

/-- Does the text start with a literal `<br>` tag, in any letter case? -/
def startsWithBrTag : List Char → Bool
  | a :: c1 :: c2 :: d :: _ => a == '<' && isBrB c1 && isBrR c2 && d == '>'
  | _ => false

/-- Does the text contain the substring `<br>`, in any letter case? -/
def hasBrTag : List Char → Bool
  | [] => false
  | c :: cs => startsWithBrTag (c :: cs) || hasBrTag cs

/-! ## `promote_headings.py`

The module body reads `master_output.md` with `readlines`, maps each
line independently, and writes the result back.  Per line: if the line
starts with `#` and matches `re.match(r'^(#+)\s', line)` with more than
one `#`, one leading `#` is removed (`line[1:]`); otherwise the line is
kept.  The greedy `(#+)` is deterministic: a shorter run of `#` is
followed by another `#`, which `\s` cannot match, so the regex matches
iff the character right after the maximal `#` run is whitespace. -/

/-- Length of the leading run of `#` characters. -/
def hashRun : List Char → Nat
  | [] => 0
  | c :: cs => if c == '#' then hashRun cs + 1 else 0

/-- `line.startswith('#')`. -/
def startsWithHash : List Char → Bool
  | [] => false
  | c :: _ => c == '#'

/-- Does the line match `re.match(r'^(#+)\s', line)`? -/
def headingHashMatch (l : List Char) : Bool :=
  decide (1 ≤ hashRun l) &&
    (match l.drop (hashRun l) with
     | c :: _ => pyIsSpace c
     | [] => false)

/-- The per-line transformation of `promote_headings.py`. -/
def promoteLine (line : List Char) : List Char :=
  if startsWithHash line then
    if headingHashMatch line then
      if 1 < hashRun line then line.drop 1 else line
    else line
  else line

/-- The whole-file transformation of `promote_headings.py`. -/
def promote_headings (lines : List (List Char)) : List (List Char) :=
  lines.map promoteLine

/-! ## `remove_emojis.py`

`remove_emojis` applies, in order:
1. `emoji_pattern.sub('', text)` where `emoji_pattern` is the single
   character class built from the ranges enumerated in the source
   (several ranges are listed twice in the source; as a character class
   the duplicates are a no-op);
2. twenty `text.replace(<mojibake literal>, '')` calls;
3. `re.sub(r' +', ' ', text)`;
4. `re.sub(r'\n\s*\n\s*\n', '\n\n', text)`. -/

/-- Membership in the character class of `emoji_pattern`, range by range
in source order (duplicated ranges folded into the same disjunction). -/
def inEmojiClass (c : Char) : Bool :=
  let n := c.toNat
  (0x1F600 ≤ n && n ≤ 0x1F64F) ||
  (0x1F300 ≤ n && n ≤ 0x1F5FF) ||
  (0x1F680 ≤ n && n ≤ 0x1F6FF) ||
  (0x1F1E0 ≤ n && n ≤ 0x1F1FF) ||
  (0x2702 ≤ n && n ≤ 0x27B0) ||
  (0x24C2 ≤ n && n ≤ 0x1F251) ||
  (0x1F900 ≤ n && n ≤ 0x1F9FF) ||
  (0x1FA00 ≤ n && n ≤ 0x1FA6F) ||
  (0x1FA70 ≤ n && n ≤ 0x1FAFF) ||
  (0x2600 ≤ n && n ≤ 0x26FF) ||
  (0x2700 ≤ n && n ≤ 0x27BF) ||
  (0x1F018 ≤ n && n ≤ 0x1F270) ||
  (0xFE00 ≤ n && n ≤ 0xFE0F) ||
  n == 0x200D ||
  (0x2640 ≤ n && n ≤ 0x2642) ||
  n == 0x2695 || n == 0x2699 ||
  (0x269B ≤ n && n ≤ 0x269C) ||
  (0x26A0 ≤ n && n ≤ 0x26A1) ||
  (0x26AA ≤ n && n ≤ 0x26AB) ||
  (0x26B0 ≤ n && n ≤ 0x26B1) ||
  (0x26BD ≤ n && n ≤ 0x26BE) ||
  (0x26C4 ≤ n && n ≤ 0x26C5) ||
  n == 0x26CE || n == 0x26D4 || n == 0x26EA ||
  (0x26F2 ≤ n && n ≤ 0x26F3) ||
  n == 0x26F5 || n == 0x26FA || n == 0x26FD ||
  n == 0x2705 ||
  (0x270A ≤ n && n ≤ 0x270B) ||
  n == 0x2728 || n == 0x274C || n == 0x274E ||
  (0x2753 ≤ n && n ≤ 0x2755) ||
  n == 0x2757 ||
  (0x2795 ≤ n && n ≤ 0x2797) ||
  n == 0x27B0 || n == 0x27BF ||
  (0x2B1B ≤ n && n ≤ 0x2B1C) ||
  n == 0x2B50 || n == 0x2B55 ||
  n == 0x3030 || n == 0x303D || n == 0x3297 || n == 0x3299

/-- `emoji_pattern.sub('', text)`: the pattern `[..class..]+` matches the
maximal runs of class characters and the empty replacement deletes them,
so the substitution deletes exactly the class characters and keeps every
other character in order. -/
def emojiSub (s : List Char) : List Char := s.filter (fun c => !inEmojiClass c)

/-- `text.replace(old, '')` for a nonempty `old`: delete the
non-overlapping occurrences of `old`, scanning left to right.  The fuel
bounds the scan; every step consumes at least one character. -/
def pyDeleteOcc (old : List Char) : Nat → List Char → List Char
  | 0, l => l
  | _ + 1, [] => []
  | f + 1, c :: cs =>
    if old.isPrefixOf (c :: cs) && !old.isEmpty then
      pyDeleteOcc old f ((c :: cs).drop old.length)
    else c :: pyDeleteOcc old f cs

/-- The twenty mojibake literals deleted by `remove_emojis`, by their
exact code points in the source file (in source order). -/
def mojibakeLiterals : List (List Char) :=
  [[Char.ofNat 0x201A, Char.ofNat 0xFA, Char.ofNat 0xD6],
   [Char.ofNat 0x201A, Char.ofNat 0xF9, Char.ofNat 0xE5],
   [Char.ofNat 0x201A, Char.ofNat 0xFA, Char.ofNat 0xEC],
   [Char.ofNat 0x201A, Char.ofNat 0xFA, Char.ofNat 0xF3],
   [Char.ofNat 0x201A, Char.ofNat 0xF6, Char.ofNat 0x2020,
    Char.ofNat 0xD4, Char.ofNat 0x220F, Char.ofNat 0xE8],
   [Char.ofNat 0x201A, Char.ofNat 0xF6, Char.ofNat 0x2020],
   [Char.ofNat 0xF8FF, Char.ofNat 0xFC, Char.ofNat 0xE9, Char.ofNat 0xE2],
   [Char.ofNat 0xF8FF, Char.ofNat 0xFC, Char.ofNat 0xE9, Char.ofNat 0xD8],
   [Char.ofNat 0xF8FF, Char.ofNat 0xFC, Char.ofNat 0xEC, Char.ofNat 0xE4],
   [Char.ofNat 0xF8FF, Char.ofNat 0xFC, Char.ofNat 0xEC, Char.ofNat 0xC5],
   [Char.ofNat 0xF8FF, Char.ofNat 0xFC, Char.ofNat 0xEC, Char.ofNat 0x220F],
   [Char.ofNat 0xF8FF, Char.ofNat 0xFC, Char.ofNat 0xEE, Char.ofNat 0xD1],
   [Char.ofNat 0x201A, Char.ofNat 0x2260, Char.ofNat 0xEA],
   [Char.ofNat 0xF8FF, Char.ofNat 0xFC, Char.ofNat 0xF6, Char.ofNat 0xC4],
   [Char.ofNat 0xF8FF, Char.ofNat 0xFC, Char.ofNat 0xED, Char.ofNat 0xB0],
   [Char.ofNat 0xF8FF, Char.ofNat 0xFC, Char.ofNat 0xEE, Char.ofNat 0xE7],
   [Char.ofNat 0xF8FF, Char.ofNat 0xFC, Char.ofNat 0xEC, Char.ofNat 0xF9],
   [Char.ofNat 0xF8FF, Char.ofNat 0xFC, Char.ofNat 0xE8, Char.ofNat 0x2020],
   [Char.ofNat 0xF8FF, Char.ofNat 0xFC, Char.ofNat 0xEC, Char.ofNat 0xB6],
   [Char.ofNat 0xF8FF, Char.ofNat 0xFC, Char.ofNat 0xE5, Char.ofNat 0xEA]]

/-- The chain of the twenty `replace(..., '')` calls. -/
def applyMojibakeDeletes (s : List Char) : List Char :=
  mojibakeLiterals.foldl (fun acc old => pyDeleteOcc old acc.length acc) s

/-- Is the head of the list the given character? -/
def headIsChar (a : Char) : List Char → Bool
  | [] => false
  | c :: _ => c == a

/-- `re.sub(r' +', ' ', text)`: each maximal run of spaces becomes one
space.  (Dropping every space that is followed by another space keeps
exactly one space per run, which is the same output string.) -/
def collapseSpaces : List Char → List Char
  | [] => []
  | c :: cs =>
    if c == ' ' && headIsChar ' ' cs then collapseSpaces cs
    else c :: collapseSpaces cs

/-- Length of the maximal `\s` prefix run. -/
def wsRunLen : List Char → Nat
  | [] => 0
  | c :: cs => if pyIsSpace c then wsRunLen cs + 1 else 0

/-- Require a literal `\n` at the head, returning the remainder. -/
def expectNl : List Char → Option (List Char)
  | [] => none
  | c :: t => if c == '\n' then some t else none

/-- Try to match a literal `\n` at offset `k`, returning the remainder. -/
def checkNlAt (t : List Char) (k : Nat) : Option (List Char) :=
  expectNl (t.drop k)

/-- First alternative that succeeds (the backtracking order). -/
def tryOr : Option (List Char) → Option (List Char) → Option (List Char)
  | some r, _ => some r
  | none, b => b

/-- Backtracking search of `\s*\n`: the greedy `\s*` tries the longest
whitespace prefix first and gives characters back one at a time, so the
offsets `k, k-1, ..., 0` are tried in that order. -/
def findNlDesc (t : List Char) : Nat → Option (List Char)
  | 0 => checkNlAt t 0
  | k + 1 => tryOr (checkNlAt t (k + 1)) (findNlDesc t k)

/-- Match `\s*\n` after the second newline of the pattern. -/
def innerNl (t2 : List Char) : Option (List Char) := findNlDesc t2 (wsRunLen t2)

/-- Continue with the inner `\s*\n` when the `\n` at the current outer
offset matched. -/
def stepInner : Option (List Char) → Option (List Char)
  | some t2 => innerNl t2
  | none => none

/-- One outer offset of `\s*\n\s*\n`: a `\n` here followed by a full
inner match. -/
def outerStep (t : List Char) (k : Nat) : Option (List Char) :=
  stepInner (checkNlAt t k)

/-- Match `\s*\n\s*\n` with full backtracking of the first greedy `\s*`:
on an inner failure the outer offset is decremented, exactly as the
regex engine backtracks. -/
def outerNl (t : List Char) : Nat → Option (List Char)
  | 0 => outerStep t 0
  | k + 1 => tryOr (outerStep t (k + 1)) (outerNl t k)

/-- Match `\n\s*\n\s*\n` at the head of the text. -/
def matchTripleNl : List Char → Option (List Char)
  | [] => none
  | c :: t => if c == '\n' then outerNl t (wsRunLen t) else none

/-- One left-to-right pass of `re.sub(r'\n\s*\n\s*\n', '\n\n', text)`. -/
def subTripleNl : Nat → List Char → List Char
  | 0, l => l
  | _ + 1, [] => []
  | f + 1, c :: cs =>
    match matchTripleNl (c :: cs) with
    | some rest => '\n' :: '\n' :: subTripleNl f rest
    | none => c :: subTripleNl f cs

/-- `remove_emojis` of `remove_emojis.py`: the four steps in order. -/
def remove_emojis (s : List Char) : List Char :=
  let s1 := emojiSub s
  let s2 := applyMojibakeDeletes s1
  let s3 := collapseSpaces s2
  subTripleNl s3.length s3

/-! ## `generate_diagrams.py` (top level): dependency checking

`install_dependencies` returns `False` when `import graphviz` raises
`ImportError` (after printing a remediation message) and also when the
`dot` binary is not on the PATH; `main` returns immediately in that
case, before `create_all_diagrams` and before the markdown file from
`sys.argv` is opened.  The file-system effects of `main` are modelled
as a trace of the markdown files read, the markdown files written and
the diagrams rendered. -/

structure DiagEnv where
  graphvizImportable : Bool
  dotOnPath : Bool
deriving DecidableEq

/-- `install_dependencies`: `False` on `ImportError`, `False` when
`which dot` fails, `True` otherwise. -/
def install_dependencies (e : DiagEnv) : Bool :=
  e.graphvizImportable && e.dotOnPath

structure GenDiagramsTrace where
  mdReads : List (List Char)
  mdWrites : List (List Char)
  rendered : List (List Char)
deriving DecidableEq

/-- The five diagram names of `create_all_diagrams`. -/
def diagramNames : List (List Char) :=
  ["virtuallist-architecture".toList,
   "canvas-architecture".toList,
   "reactive-engine-architecture".toList,
   "spreadsheet-architecture".toList,
   "charts-architecture".toList]

/-- Effect trace of `main` of `generate_diagrams.py` on an environment
and on `sys.argv[1:]`: if `install_dependencies` fails, `main` prints
and returns at once; otherwise it renders all diagrams and, when a
markdown path was given, reads it and writes the output path (the input
path itself when no second argument is given). -/
def generate_diagrams_main (e : DiagEnv) (argv : List (List Char)) : GenDiagramsTrace :=
  if install_dependencies e = false then ⟨[], [], []⟩
  else
    match argv with
    | [] => ⟨[], [], diagramNames⟩
    | mdFile :: rest =>
      let outFile := match rest with
        | [] => mdFile
        | o :: _ => o
      ⟨[mdFile], [outFile], diagramNames⟩

/-! ## `add_newlines_before_lists.py`

`add_newlines_before_lists` splits the content on `'\n'`, walks the
lines tracking code fences, inserts an empty line before a list item
whose previous original line is neither blank nor a list item, and
joins with `'\n'`. -/

/-- `line.lstrip()`. -/
def pyLStrip (l : List Char) : List Char := pySkipSpaces l

/-- `line.strip()`. -/
def pyStrip (l : List Char) : List Char :=
  (pySkipSpaces (pySkipSpaces l).reverse).reverse

/-- `re.match(r'^[-*+]\s', stripped)`. -/
def isUnorderedItem : List Char → Bool
  | c :: d :: _ => (c == '-' || c == '*' || c == '+') && pyIsSpace d
  | _ => false

/-- Length of the leading run of ASCII digits (`\d+` is greedy, and a
shorter run is followed by a digit, which `[.)]` cannot match). -/
def digitRun : List Char → Nat
  | [] => 0
  | c :: cs => if c.isDigit then digitRun cs + 1 else 0

/-- The `[.)]\s` part of `re.match(r'^\d+[.)]\s', stripped)`. -/
def dotParenSpace : List Char → Bool
  | c :: d :: _ => (c == '.' || c == ')') && pyIsSpace d
  | _ => false

/-- `re.match(r'^\d+[.)]\s', stripped)`. -/
def isOrderedItem (l : List Char) : Bool :=
  decide (1 ≤ digitRun l) && dotParenSpace (l.drop (digitRun l))

/-- `is_list_item` of `add_newlines_before_lists.py`. -/
def is_list_item (line : List Char) : Bool :=
  isUnorderedItem (pyLStrip line) || isOrderedItem (pyLStrip line)

/-- `is_blank_line`: `line.strip() == ''`. -/
def is_blank_line (line : List Char) : Bool := (pyStrip line).isEmpty

/-- `is_code_fence`: `line.strip().startswith('```')`. -/
def is_code_fence (line : List Char) : Bool :=
  List.isPrefixOf "```".toList (pyStrip line)

/-- Does the previous original line trigger an insertion (`i > 0`, not
blank, not itself a list item)? -/
def prevTriggers : Option (List Char) → Bool
  | none => false
  | some p => !is_blank_line p && !is_list_item p

/-- The line loop of `add_newlines_before_lists`: `prev` is the
previous original line (`lines[i-1]`, `none` at `i = 0`). -/
def addNlLoop (prev : Option (List Char)) (inCode : Bool) :
    List (List Char) → List (List Char)
  | [] => []
  | l :: ls =>
    if is_code_fence l then l :: addNlLoop (some l) (!inCode) ls
    else if inCode then l :: addNlLoop (some l) inCode ls
    else if is_list_item l && prevTriggers prev then
      [] :: l :: addNlLoop (some l) inCode ls
    else l :: addNlLoop (some l) inCode ls

/-- `content.split('\n')`. -/
def splitNl : List Char → List (List Char)
  | [] => [[]]
  | c :: cs =>
    if c == '\n' then [] :: splitNl cs
    else
      match splitNl cs with
      | seg :: rest => (c :: seg) :: rest
      | [] => [[c]]

/-- `'\n'.join(lines)`. -/
def joinNl : List (List Char) → List Char
  | [] => []
  | [l] => l
  | l :: l2 :: ls => l ++ '\n' :: joinNl (l2 :: ls)

/-- `add_newlines_before_lists` of `add_newlines_before_lists.py`. -/
def add_newlines_before_lists (content : List Char) : List Char :=
  joinNl (addNlLoop none false (splitNl content))

/-! ## `replace_code_with_png.py`

`replace_diagram_section` is the per-match replacement callback of
`re.sub`: given the matched groups (header line, python code block
content, following text up to the next section), it extracts the
pattern name from the code, removes the code block, and inserts one PNG
reference unless `<pattern>.png` already occurs in the first 200
characters of the following text. -/

/-- Python `\w` (ASCII part: the pattern names in this repository are
ASCII): letters, digits and underscore. -/
def isWordChar (c : Char) : Bool :=
  let n := c.toNat
  (0x61 ≤ n && n ≤ 0x7A) || (0x41 ≤ n && n ≤ 0x5A) || (0x30 ≤ n && n ≤ 0x39) || n == 0x5F

/-- Match `<pre>(\w+)<suffix>` at the head of the text and return the
group.  The greedy `\w+` is deterministic: a shorter run ends on a word
character, which the suffix (starting with `.`) cannot match. -/
def matchNameAfter (pre suffix l : List Char) : Option (List Char) :=
  if pre.isPrefixOf l then
    let rest := l.drop pre.length
    let w := rest.takeWhile isWordChar
    if w.isEmpty then none
    else if suffix.isPrefixOf (rest.drop w.length) then some w
    else none
  else none

/-- `re.search` of `<pre>(\w+)<suffix>`: leftmost position wins.  The
fuel bounds the scan (one character per step). -/
def searchNamed (pre suffix : List Char) : Nat → List Char → Option (List Char)
  | 0, _ => none
  | _ + 1, [] => none
  | f + 1, c :: cs =>
    match matchNameAfter pre suffix (c :: cs) with
    | some w => some w
    | none => searchNamed pre suffix f cs

/-- `extract_pattern_name_from_code`: first search
`docs/images/(\w+)\.png`, then `diagrams/(\w+)\.py`. -/
def extract_pattern_name (code : List Char) : Option (List Char) :=
  match searchNamed "docs/images/".toList ".png".toList (code.length + 1) code with
  | some w => some w
  | none => searchNamed "diagrams/".toList ".py".toList (code.length + 1) code

/-- `pattern_name.replace('_', ' ')`, character by character. -/
def underscoreToSpace (c : Char) : Char := if c == '_' then ' ' else c

/-- ASCII letter. -/
def isAsciiAlpha (c : Char) : Bool :=
  let n := c.toNat
  (0x61 ≤ n && n ≤ 0x7A) || (0x41 ≤ n && n ≤ 0x5A)

/-- Uppercase an ASCII letter (the alphabet spelt out). -/
def pyToUpper (c : Char) : Char :=
  match c with
  | 'a' => 'A' | 'b' => 'B' | 'c' => 'C' | 'd' => 'D' | 'e' => 'E' | 'f' => 'F' | 'g' => 'G'
  | 'h' => 'H' | 'i' => 'I' | 'j' => 'J' | 'k' => 'K' | 'l' => 'L' | 'm' => 'M' | 'n' => 'N'
  | 'o' => 'O' | 'p' => 'P' | 'q' => 'Q' | 'r' => 'R' | 's' => 'S' | 't' => 'T' | 'u' => 'U'
  | 'v' => 'V' | 'w' => 'W' | 'x' => 'X' | 'y' => 'Y' | 'z' => 'Z'
  | c => c

/-- Lowercase an ASCII letter (the alphabet spelt out). -/
def pyToLower (c : Char) : Char :=
  match c with
  | 'A' => 'a' | 'B' => 'b' | 'C' => 'c' | 'D' => 'd' | 'E' => 'e' | 'F' => 'f' | 'G' => 'g'
  | 'H' => 'h' | 'I' => 'i' | 'J' => 'j' | 'K' => 'k' | 'L' => 'l' | 'M' => 'm' | 'N' => 'n'
  | 'O' => 'o' | 'P' => 'p' | 'Q' => 'q' | 'R' => 'r' | 'S' => 's' | 'T' => 't' | 'U' => 'u'
  | 'V' => 'v' | 'W' => 'w' | 'X' => 'x' | 'Y' => 'y' | 'Z' => 'z'
  | c => c

/-- `str.title()` on ASCII text: the first letter of each run of cased
characters is uppercased, the following ones lowercased. -/
def pyTitleGo : Bool → List Char → List Char
  | _, [] => []
  | prevCased, c :: cs =>
    if isAsciiAlpha c then
      (if prevCased then pyToLower c else pyToUpper c) :: pyTitleGo true cs
    else c :: pyTitleGo false cs

/-- `str.title()`. -/
def pyTitle (l : List Char) : List Char := pyTitleGo false l

/-- The inserted reference
`f"![{name.replace('_',' ').title()} Architecture](docs/images/{name}.png)\n\n"`. -/
def pngRef (n : List Char) : List Char :=
  "![".toList ++ pyTitle (n.map underscoreToSpace) ++ " Architecture](docs/images/".toList ++
    n ++ ".png)\n\n".toList

/-- Python `sub in s` (for nonempty `sub`): some position of `s` starts
with `sub`. -/
def occursIn (pat : List Char) : List Char → Bool
  | [] => pat.isEmpty
  | c :: cs => pat.isPrefixOf (c :: cs) || occursIn pat cs

/-- `replace_diagram_section` of `replace_code_with_png.py` on the
three match groups. -/
def replace_diagram_section (header code after : List Char) : List Char :=
  match extract_pattern_name code with
  | none => header ++ "\n\n".toList ++ after
  | some n =>
    if occursIn (n ++ ".png".toList) (after.take 200) then
      header ++ "\n\n".toList ++ after
    else
      header ++ "\n\n".toList ++ pngRef n ++ after

/-- Number of positions of `s` at which `pat` occurs (all positions,
overlapping ones included). -/
def posCount (pat : List Char) : List Char → Nat
  | [] => 0
  | c :: cs => (if pat.isPrefixOf (c :: cs) then 1 else 0) + posCount pat cs

/-! ## `add_python_snippets.py`

`main` reads the lines, finds every `## Python Architecture Diagram
Snippet` section, and processes them in reverse order: when the next
line is blank it looks backward for a `## CONTINUED:` header, derives a
file name, and when the file exists replaces the blank line with the
code block; any failure skips just that section (`continue`).  The file
system is modelled as a partial map from derived file name to the file
content of `build/diagrams/<name>.py`. -/

/-- `line.strip() == "## Python Architecture Diagram Snippet"`. -/
def isSnippetHeaderLine (l : List Char) : Bool :=
  pyStrip l == "## Python Architecture Diagram Snippet".toList

/-- Indices (from `i` on) of the lines satisfying `p`, in order. -/
def positionsFrom (p : List Char → Bool) : Nat → List (List Char) → List Nat
  | _, [] => []
  | i, l :: ls => if p l then i :: positionsFrom p (i + 1) ls else positionsFrom p (i + 1) ls

/-- The snippet sections of the file, in increasing line order. -/
def snippetSections (lines : List (List Char)) : List Nat :=
  positionsFrom isSnippetHeaderLine 0 lines

/-- `line.startswith('## CONTINUED:')`. -/
def startsWithContinued (l : List Char) : Bool :=
  List.isPrefixOf "## CONTINUED:".toList l

/-- The backward scan of `find_pattern_name_before_line` from index `i`,
for `cnt` steps. -/
def goBack (lines : List (List Char)) : Nat → Nat → Option (List Char)
  | _, 0 => none
  | i, cnt + 1 =>
    if startsWithContinued (lines.getD i []) then some (lines.getD i [])
    else goBack lines (i - 1) cnt

/-- `find_pattern_name_before_line(lines, line_num)`: scan
`range(line_num - 1, max(0, line_num - 1000), -1)` (the lower bound is
exclusive, so with a small `line_num` line 0 is never examined). -/
def find_pattern_name_before_line (lines : List (List Char)) (lineNum : Nat) :
    Option (List Char) :=
  goBack lines (lineNum - 1) ((lineNum - 1) - (lineNum - 1000))

/-- `(.+)$` at the current offset: greedy `.` excludes `\n`, and `$`
holds at the end of the string or before a terminal newline only, so
the group is the maximal newline-free run, and it must reach the end up
to one final newline. -/
def dotPlusDollar (l : List Char) : Option (List Char) :=
  let r := l.takeWhile (fun c => !(c == '\n'))
  if r.isEmpty then none
  else
    match l.drop r.length with
    | [] => some r
    | ['\n'] => some r
    | _ => none

/-- Backtracking of the greedy `\s*` after the dash: offsets
`k, k-1, ..., 0` in that order. -/
def dashTailDesc (tail : List Char) : Nat → Option (List Char)
  | 0 => dotPlusDollar tail
  | k + 1 =>
    match dotPlusDollar (tail.drop (k + 1)) with
    | some g => some g
    | none => dashTailDesc tail k

/-- Match `\s*(.+)$` after a dash. -/
def matchDashAt (tail : List Char) : Option (List Char) :=
  dashTailDesc tail (wsRunLen tail)

/-- The character class `[—-]` (em dash or hyphen). -/
def isDash (c : Char) : Bool := c == '—' || c == '-'

/-- `re.search(r'[—-]\s*(.+)$', header)`: leftmost dash whose tail
matches; on a failed tail the search resumes at the next position. -/
def searchDash : Nat → List Char → Option (List Char)
  | 0, _ => none
  | _ + 1, [] => none
  | f + 1, c :: cs =>
    if isDash c then
      match matchDashAt cs with
      | some g => some g
      | none => searchDash f cs
    else searchDash f cs

/-- `str.lower()` (ASCII; the headers are ASCII). -/
def pyLower (l : List Char) : List Char := l.map pyToLower

/-- `str.replace(old, new)` for nonempty `old`: replace the
non-overlapping occurrences left to right; fuel bounds the scan. -/
def pyReplace (old new : List Char) : Nat → List Char → List Char
  | 0, l => l
  | _ + 1, [] => []
  | f + 1, c :: cs =>
    if old.isPrefixOf (c :: cs) && !old.isEmpty then
      new ++ pyReplace old new f ((c :: cs).drop old.length)
    else c :: pyReplace old new f cs

/-- `str.replace(old, new)` with the fuel instantiated. -/
def pyReplaceAll (old new s : List Char) : List Char := pyReplace old new s.length s

/-- The chain of `.lower()` and `.replace` calls of
`pattern_name_to_filename`. -/
def nameTransform (patternName : List Char) : List Char :=
  let f0 := pyLower patternName
  let f1 := pyReplaceAll " / ".toList "_".toList f0
  let f2 := pyReplaceAll "/".toList "_".toList f1
  let f3 := pyReplaceAll " ".toList "_".toList f2
  let f4 := pyReplaceAll "(".toList [] f3
  let f5 := pyReplaceAll ")".toList [] f4
  let f6 := pyReplaceAll "-".toList "_".toList f5
  let f7 := pyReplaceAll "&".toList [] f6
  pyReplaceAll ",".toList [] f7

/-- The special-case mapping dictionary (checked after the `_pattern`
suffix is ensured). -/
def specialMapping (l : List Char) : List Char :=
  if l == "observer_reactive_streams_pattern".toList then
    "observer_reactive_streams_pattern".toList
  else if l == "currying_partial_application_pattern".toList then
    "currying_partial_application".toList
  else if l == "chain_of_responsibility_pattern".toList then
    "chain_of_responsibility_pattern".toList
  else if l == "pub_sub_pattern".toList then "pubsub_pattern".toList
  else if l == "mvc_model_view_controller_pattern".toList then "mvc_pattern".toList
  else if l == "mvp_model_view_presenter_pattern".toList then "mvp_pattern".toList
  else if l == "mvvm_model_view_viewmodel_pattern".toList then "mvvm_pattern".toList
  else if l == "cqrs_command_query_responsibility_segregation_pattern".toList then
    "cqrs_pattern".toList
  else if l == "functional_composition_pattern".toList then
    "functional_composition".toList
  else l

/-- `pattern_name_to_filename` on a found header line. -/
def pattern_name_to_filename (header : List Char) : Option (List Char) :=
  match searchDash (header.length + 1) header with
  | none => none
  | some g =>
    let f := nameTransform (pyStrip g)
    let f2 := if List.isSuffixOf "_pattern".toList f then f else f ++ "_pattern".toList
    some (specialMapping f2)

/-- The code block text inserted in place of the blank line:
`f"\n```python\n{python_code}```\n\n"`. -/
def insertText (code : List Char) : List Char :=
  "\n```python\n".toList ++ code ++ "```\n\n".toList

/-- One fold step of `main`: process the section at line `s` on the
current (possibly already modified) lines. -/
def sectionStep (fs : List Char → Option (List Char)) (cur : List (List Char)) (s : Nat) :
    List (List Char) :=
  if s + 1 < cur.length && (pyStrip (cur.getD (s + 1) [])).isEmpty then
    match find_pattern_name_before_line cur s with
    | none => cur
    | some header =>
      match pattern_name_to_filename header with
      | none => cur
      | some fname =>
        match fs fname with
        | none => cur
        | some code => cur.set (s + 1) (insertText code)
  else cur

/-- The whole transformation of `main` of `add_python_snippets.py`:
sections processed in reverse order, mutating the line list. -/
def add_python_snippets (fs : List Char → Option (List Char)) (lines : List (List Char)) :
    List (List Char) :=
  (snippetSections lines).reverse.foldl (sectionStep fs) lines

/-- Does the section at `s` succeed (next line blank, header found,
name parsed, file present), evaluated on the original lines? -/
def sectionSuccess (fs : List Char → Option (List Char)) (lines : List (List Char))
    (s : Nat) : Bool :=
  (s + 1 < lines.length && (pyStrip (lines.getD (s + 1) [])).isEmpty) &&
  (match find_pattern_name_before_line lines s with
   | none => false
   | some header =>
     match pattern_name_to_filename header with
     | none => false
     | some fname => (fs fname).isSome)

/-- The line written at `s + 1` by a successful section at `s`. -/
def sectionNewLine (fs : List Char → Option (List Char)) (lines : List (List Char))
    (s : Nat) : List Char :=
  match find_pattern_name_before_line lines s with
  | none => []
  | some header =>
    match pattern_name_to_filename header with
    | none => []
    | some fname =>
      match fs fname with
      | none => []
      | some code => insertText code

/-- Fixture for the closed instances: a file map holding only
`foo_pattern.py`. -/
def demoFs : List Char → Option (List Char) :=
  fun n => if n == "foo_pattern".toList then some "CODE\n".toList else none

/-- Fixture for the closed instances: two snippet sections, the first
with its diagram file present, the second (`bar_pattern`) missing. -/
def demoLines : List (List Char) :=
  ["x\n".toList,
   "## CONTINUED: Creational — Foo\n".toList,
   "## Python Architecture Diagram Snippet\n".toList,
   "\n".toList,
   "## CONTINUED: Creational — Bar\n".toList,
   "## Python Architecture Diagram Snippet\n".toList,
   "\n".toList]

/-! ## `generate_diagrams.py`: `replace_ascii_diagrams_with_images`

A line-indexed scanner with state `(i, current_section, in_code_block,
skip_until_code_end, modified_lines)`, transcribed branch by branch
from the `while i < len(lines)` loop (with the default
`diagram_dir='diagrams'` that `main` passes).  `line.strip()`-based
checks reuse `is_code_fence` / `is_blank_line`. -/

/-- The box-drawing characters of the first (lookahead) check. -/
def boxChars1 : List Char := ['┌', '│', '├', '└', '─', '┐', '┘', '┤', '┬', '┴']

/-- The box-drawing characters of the Architecture-Overview check
(the same set plus `┼`). -/
def boxChars2 : List Char := ['┌', '│', '├', '└', '─', '┐', '┘', '┤', '┬', '┴', '┼']

/-- `any(char in line for char in cs)`. -/
def containsAnyOf (cs l : List Char) : Bool := cs.any (fun c => l.contains c)

/-- The `primary_insertions` dict, in insertion order. -/
def primary_insertions : List (List Char × List Char) :=
  [("# Virtualized Infinite List with Dynamic Heights".toList,
    "virtuallist-architecture.png".toList),
   ("# High-Fidelity Pixel-Perfect Zoomable Canvas".toList,
    "canvas-architecture.png".toList),
   ("# Reactive Formulas Engine (Spreadsheet-like)".toList,
    "reactive-engine-architecture.png".toList),
   ("# DOM-Based Spreadsheet Renderer (Excel Clone)".toList,
    "spreadsheet-architecture.png".toList),
   ("# High-Volume Real-Time Charts with Backfill".toList,
    "charts-architecture.png".toList)]

/-- The first heading of the dict matching `line.strip()` (the `for`
loop `break`s on the first hit). -/
def findHeading (line : List Char) : Option (List Char) :=
  match primary_insertions.find? (fun pr => pyStrip line == pr.1) with
  | some pr => some pr.2
  | none => none

/-- `for j in range(i, min(i + 20, len(lines)))`: box characters found
before a fence-starting line?  Note the range starts at `i` — the
opening fence line itself — whose `startswith('```')` test breaks the
loop on its very first step. -/
def asciiLookFrom (lines : List (List Char)) : Nat → Nat → Bool
  | _, 0 => false
  | j, cnt + 1 =>
    if containsAnyOf boxChars1 (lines.getD j []) then true
    else if is_code_fence (lines.getD j []) then false
    else asciiLookFrom lines (j + 1) cnt

/-- The `is_ascii_diagram` lookahead of the first removal path. -/
def asciiLook (lines : List (List Char)) (i : Nat) : Bool :=
  asciiLookFrom lines i (min (i + 20) lines.length - i)

/-- `f'\n![Architecture Diagram](diagrams/{diagram})\n\n'`. -/
def diagText (diagram : List Char) : List Char :=
  "\n![Architecture Diagram](diagrams/".toList ++ diagram ++ ")\n\n".toList

/-- `while j < len(lines) and lines[j].strip() == '': j += 1`. -/
def skipBlanksFrom (lines : List (List Char)) : Nat → Nat → Nat
  | j, 0 => j
  | j, f + 1 =>
    if j < lines.length && is_blank_line (lines.getD j []) then
      skipBlanksFrom lines (j + 1) f
    else j

/-- The `while k < len(lines)` scan for the closing fence: a fence line
breaks (returning `some k` when box characters were seen); box
characters set the flag. -/
def scanAsciiBlock (lines : List (List Char)) : Nat → Nat → Bool → Option Nat
  | _, 0, _ => none
  | k, f + 1, isA =>
    if k < lines.length then
      if is_code_fence (lines.getD k []) then
        if isA then some k else none
      else if containsAnyOf boxChars2 (lines.getD k []) then
        scanAsciiBlock lines (k + 1) f true
      else scanAsciiBlock lines (k + 1) f isA
    else none

/-- `while i + 1 < len(lines) and lines[i + 1].strip() == '': i += 1`. -/
def advanceTrailingBlanks (lines : List (List Char)) : Nat → Nat → Nat
  | i, 0 => i
  | i, f + 1 =>
    if i + 1 < lines.length && is_blank_line (lines.getD (i + 1) []) then
      advanceTrailingBlanks lines (i + 1) f
    else i

/-- The main `while i < len(lines)` loop.  The fuel bounds the number
of iterations: `i` strictly increases each iteration, so
`lines.length + 1` iterations always suffice.  (The Architecture
Overview phase uses the heading phase's `i` and output, and its
condition tests the original `line`, which cannot be both a heading and
the Overview marker, exactly as in the source.) -/
def raLoop (lines : List (List Char)) :
    Nat → Nat → Option (List Char) → Bool → Bool → List (List Char) → List (List Char)
  | 0, _, _, _, _, out => out
  | f + 1, i, cur, inCode, skip, out =>
    if i < lines.length then
      let line := lines.getD i []
      if is_code_fence line && (!inCode && cur.isSome && asciiLook lines i) then
        raLoop lines f (i + 1) cur inCode true out
      else
        let inCode2 := if is_code_fence line then !inCode else inCode
        if is_code_fence line && (!inCode2 && skip) then
          raLoop lines f (i + 1) cur inCode2 false out
        else if skip then
          raLoop lines f (i + 1) cur inCode2 skip out
        else
          let out1 := out ++ [line]
          match findHeading line with
          | some diagram =>
            let hasBlank := i + 1 < lines.length && is_blank_line (lines.getD (i + 1) [])
            let i2 := if hasBlank then i + 1 else i
            let out2 := if hasBlank then out1 ++ [lines.getD (i + 1) []] else out1
            raLoop lines f (i2 + 1) (some diagram) inCode2 skip (out2 ++ [diagText diagram])
          | none =>
            match cur with
            | some sec =>
              if !inCode2 && pyStrip line == "**Architecture Overview**:".toList then
                let hasBlank := i + 1 < lines.length && is_blank_line (lines.getD (i + 1) [])
                let i2 := if hasBlank then i + 1 else i
                let out2 := if hasBlank then out1 ++ [lines.getD (i + 1) []] else out1
                let out3 := out2 ++ [diagText sec]
                let j := skipBlanksFrom lines (i2 + 1) lines.length
                if j < lines.length && pyStrip (lines.getD j []) == "```".toList then
                  match scanAsciiBlock lines (j + 1) lines.length false with
                  | some k =>
                    raLoop lines f (advanceTrailingBlanks lines k lines.length + 1)
                      cur inCode2 skip out3
                  | none => raLoop lines f (i2 + 1) cur inCode2 skip out3
                else raLoop lines f (i2 + 1) cur inCode2 skip out3
              else raLoop lines f (i + 1) cur inCode2 skip out1
            | none => raLoop lines f (i + 1) cur inCode2 skip out1
    else out

/-- `replace_ascii_diagrams_with_images` as a lines transformation. -/
def replace_ascii_diagrams (lines : List (List Char)) : List (List Char) :=
  raLoop lines (lines.length + 1) 0 none false false []

/-- The failing input: one known chapter heading followed by a fenced
code block containing a box-drawing character. -/
def asciiDoc : List (List Char) :=
  ["# Virtualized Infinite List with Dynamic Heights\n".toList,
   "\n".toList,
   "```\n".toList,
   "│box│\n".toList,
   "```\n".toList]

/-! ## `convert_to_org.py`

`convert_inline_formatting` is the ordered chain of `re.sub` calls
(links, `**`-bold, `__`-bold, `*`-italic, `_`-italic, inline code,
strikethrough), each embedded as a left-to-right scanner with the lazy
or greedy semantics of its pattern.  `convert_md_to_org` is the line
scanner (YAML frontmatter, code blocks, headings, tables, horizontal
rules, inline conversion). -/

/-- Match `\[([^\]]+)\]\(([^\)]+)\)` at the head: greedy `[^\]]+` is
the run up to the first `]` (it must be nonempty), then `](`, then the
run up to the first `)`. -/
def matchLink : List Char → Option (List Char × List Char × List Char)
  | '[' :: r1 =>
    let t := r1.takeWhile (fun c => !(c == ']'))
    if t.isEmpty then none
    else
      match r1.drop t.length with
      | ']' :: '(' :: r2 =>
        let u := r2.takeWhile (fun c => !(c == ')'))
        if u.isEmpty then none
        else
          match r2.drop u.length with
          | ')' :: rest => some (t, u, rest)
          | _ => none
      | _ => none
  | _ => none

/-- `re.sub(r'\[([^\]]+)\]\(([^\)]+)\)', r'[[\2][\1]]', text)`. -/
def subLink : Nat → List Char → List Char
  | 0, l => l
  | _ + 1, [] => []
  | f + 1, c :: cs =>
    match matchLink (c :: cs) with
    | some (t, u, rest) =>
      "[[".toList ++ u ++ "][".toList ++ t ++ "]]".toList ++ subLink f rest
    | none => c :: subLink f cs

/-- Lazy `(.+?)` up to a double delimiter `dd`: the shortest nonempty
newline-free run followed by `dd`, with the remainder after `dd`. -/
def findClose2 (d : Char) : Nat → List Char → Option (List Char × List Char)
  | 0, _ => none
  | _ + 1, [] => none
  | f + 1, c :: cs =>
    if c == '\n' then none
    else if [d, d].isPrefixOf cs then some ([c], cs.drop 2)
    else
      match findClose2 d f cs with
      | some (t, rest) => some (c :: t, rest)
      | none => none

/-- `re.sub(r'dd(.+?)dd', r'r\1r', text)` for a doubled delimiter `d`
and replacement delimiter `rep` (bold `**`/`__` to `*`, strikethrough
`~~` to `+`). -/
def subDouble (d rep : Char) : Nat → List Char → List Char
  | 0, l => l
  | _ + 1, [] => []
  | f + 1, c :: cs =>
    if c == d && headIsChar d cs then
      match findClose2 d cs.length (cs.drop 1) with
      | some (t, rest) => rep :: t ++ rep :: subDouble d rep f rest
      | none => c :: subDouble d rep f cs
    else c :: subDouble d rep f cs

/-- Does the text close a lazy single-delimiter group here: a `star`
whose preceding character `x` is not `star` (lookbehind) and whose
following character is not `star` (lookahead)? -/
def closesAt (star x : Char) : List Char → Bool
  | s :: rest => s == star && !(x == star) && !(headIsChar star rest)
  | [] => false

/-- Lazy `(.+?)` up to a closing single delimiter with its
lookarounds. -/
def findCloseStar (star : Char) : Nat → List Char → Option (List Char × List Char)
  | 0, _ => none
  | _ + 1, [] => none
  | f + 1, x :: cs =>
    if x == '\n' then none
    else if closesAt star x cs then some ([x], cs.drop 1)
    else
      match findCloseStar star f cs with
      | some (t, rest) => some (x :: t, rest)
      | none => none

/-- Is the previous original character the given one? -/
def prevIsChar (a : Char) : Option Char → Bool
  | some p => p == a
  | none => false

/-- `re.sub(r'(?<!s)s(?!s)(.+?)(?<!s)s(?!s)', r'r\1r', text)` for a
single delimiter `star` (the `*`- and `_`-italic passes, replacement
`/`).  The lookbehinds inspect the original text, so the previous
original character is carried through the scan. -/
def subSingle (star rep : Char) : Nat → Option Char → List Char → List Char
  | 0, _, l => l
  | _ + 1, _, [] => []
  | f + 1, prev, c :: cs =>
    if c == star && !prevIsChar star prev && !headIsChar star cs then
      match findCloseStar star cs.length cs with
      | some (t, rest) => rep :: t ++ rep :: subSingle star rep f (some star) rest
      | none => c :: subSingle star rep f (some c) cs
    else c :: subSingle star rep f (some c) cs

/-- Match `` `([^`]+)` `` at the head. -/
def matchCode : List Char → Option (List Char × List Char)
  | c :: r1 =>
    if c == '`' then
      let t := r1.takeWhile (fun x => !(x == '`'))
      if t.isEmpty then none
      else
        match r1.drop t.length with
        | d :: rest => if d == '`' then some (t, rest) else none
        | [] => none
    else none
  | [] => none

/-- `re.sub` of the inline-code pattern, replacement `=\1=`. -/
def subCode : Nat → List Char → List Char
  | 0, l => l
  | _ + 1, [] => []
  | f + 1, c :: cs =>
    match matchCode (c :: cs) with
    | some (t, rest) => '=' :: t ++ '=' :: subCode f rest
    | none => c :: subCode f cs

/-- `convert_inline_formatting`: the seven substitutions in source
order. -/
def convert_inline_formatting (text : List Char) : List Char :=
  let t1 := subLink text.length text
  let t2 := subDouble '*' '*' t1.length t1
  let t3 := subDouble '_' '*' t2.length t2
  let t4 := subSingle '*' '/' t3.length none t3
  let t5 := subSingle '_' '/' t4.length none t4
  let t6 := subCode t5.length t5
  subDouble '~' '+' t6.length t6

/-- `re.match(r'^(\w+):\s*(.+)$', line)`: key and raw value. -/
def yamlPropParse (line : List Char) : Option (List Char × List Char) :=
  let k := line.takeWhile isWordChar
  if k.isEmpty then none
  else
    match line.drop k.length with
    | ':' :: rest =>
      match matchDashAt rest with
      | some v => some (k, v)
      | none => none
    | _ => none

/-- `value.strip('"')`. -/
def stripQuotes (l : List Char) : List Char :=
  ((l.dropWhile (fun c => c == '"')).reverse.dropWhile (fun c => c == '"')).reverse

/-- Ordered-dict assignment `props[k] = v`. -/
def updateProp (props : List (List Char × List Char)) (k v : List Char) :
    List (List Char × List Char) :=
  if props.any (fun p => p.1 == k) then
    props.map (fun p => if p.1 == k then (k, v) else p)
  else props ++ [(k, v)]

/-- `f"#+{key.upper()}: {value}"`. -/
def propLine (p : List Char × List Char) : List Char :=
  "#+".toList ++ p.1.map pyToUpper ++ ": ".toList ++ p.2

/-- `re.match(r'^(#{1,6})\s+(.+)$', line)`: at most six hashes (a
longer run fails, since backtracking always lands on a `#`), then at
least one whitespace; the greedy `\s+` leaves the rest as the title,
backing off one whitespace character when nothing else remains. -/
def headingParse (line : List Char) : Option (Nat × List Char) :=
  let n := hashRun line
  if 1 ≤ n && n ≤ 6 then
    let rest := line.drop n
    let w := wsRunLen rest
    if w == 0 then none
    else if w < rest.length then some (n, rest.drop w)
    else if 2 ≤ w then some (n, rest.drop (w - 1))
    else none
  else none

/-- The character class `[\s\-:|]` of the table separator pattern. -/
def tableSepClass (c : Char) : Bool := pyIsSpace c || c == '-' || c == ':' || c == '|'

/-- `re.match(r'^\|[\s\-:|]+\|$', line)`. -/
def isTableSep : List Char → Bool
  | '|' :: rest =>
    decide (2 ≤ rest.length) && rest.dropLast.all tableSepClass &&
      (rest.getLast? == some '|')
  | _ => false

/-- `re.sub(r'-+', '-', separator)`: collapse each dash run to one dash
(keeping the last dash of a run yields the same string); the following
`re.sub(r'\|', '|', ...)` of the source is the identity and is not
repeated here. -/
def collapseDashes : List Char → List Char
  | [] => []
  | c :: cs =>
    if c == '-' && headIsChar '-' cs then collapseDashes cs
    else c :: collapseDashes cs

/-- `re.match(r'^[\-*_]{3,}$', line.strip())`. -/
def isHr (line : List Char) : Bool :=
  let s := pyStrip line
  decide (3 ≤ s.length) && s.all (fun c => c == '-' || c == '*' || c == '_')

/-- The `while i < len(lines)` loop of `convert_md_to_org`, processing
the remaining lines; `isFirst` holds exactly at `i == 0`.  The fuel
bounds the iterations; every iteration consumes at least one line, so
the number of lines suffices. -/
def orgLoop : Nat → Bool → Bool → List (List Char × List Char) →
    Bool → List Char → List (List Char) → List (List Char)
  | 0, _, _, _, _, _, _ => []
  | _ + 1, _, _, _, _, _, [] => []
  | f + 1, isFirst, inYaml, props, inCode, codeLang, line :: rest =>
    if isFirst && pyStrip line == "---".toList then
      orgLoop f false true props inCode codeLang rest
    else if inYaml then
      if pyStrip line == "---".toList then
        (props.map propLine ++ [[]]) ++ orgLoop f false false props inCode codeLang rest
      else
        match yamlPropParse line with
        | some kv =>
          orgLoop f false inYaml (updateProp props kv.1 (stripQuotes kv.2)) inCode codeLang rest
        | none => orgLoop f false inYaml props inCode codeLang rest
    else if List.isPrefixOf "```".toList line then
      if !inCode then
        let lang := pyStrip (line.drop 3)
        (if lang.isEmpty then ["#+BEGIN_EXAMPLE".toList] else ["#+BEGIN_SRC ".toList ++ lang]) ++
          orgLoop f false inYaml props true lang rest
      else
        (if codeLang.isEmpty then ["#+END_EXAMPLE".toList] else ["#+END_SRC".toList]) ++
          orgLoop f false inYaml props false [] rest
    else if inCode then
      line :: orgLoop f false inYaml props inCode codeLang rest
    else
      match headingParse line with
      | some nt =>
        (List.replicate nt.1 '*' ++ ' ' :: convert_inline_formatting nt.2) ::
          orgLoop f false inYaml props inCode codeLang rest
      | none =>
        if line.contains '|' && headIsChar '|' (pyStrip line) then
          match rest with
          | next :: rest2 =>
            if isTableSep next then
              line :: collapseDashes next :: orgLoop f false inYaml props inCode codeLang rest2
            else line :: orgLoop f false inYaml props inCode codeLang rest
          | [] => line :: orgLoop f false inYaml props inCode codeLang rest
        else if isHr line then
          "-----".toList :: orgLoop f false inYaml props inCode codeLang rest
        else
          convert_inline_formatting line :: orgLoop f false inYaml props inCode codeLang rest

/-- `convert_md_to_org`. -/
def convert_md_to_org (mdContent : List Char) : List Char :=
  joinNl (orgLoop (splitNl mdContent).length true false [] false [] (splitNl mdContent))

/-! # Part 2: Theorems -/

theorem pySkipSpaces_length (l : List Char) : (pySkipSpaces l).length ≤ l.length := by
  induction l with
  | nil => simp [pySkipSpaces]
  | cons c cs ih =>
    simp only [pySkipSpaces]
    split
    · exact Nat.le_succ_of_le ih
    · simp

theorem dropSlash_length (l : List Char) : (dropSlash l).length ≤ l.length := by
  match l with
  | [] => simp [dropSlash]
  | c :: t =>
    simp only [dropSlash]
    split
    · simp
    · simp

theorem expectGt_length {l t : List Char} (h : expectGt l = some t) : t.length < l.length := by
  match l with
  | [] => simp [expectGt] at h
  | c :: t' =>
    simp only [expectGt] at h
    split at h
    · injection h with h; subst h; simp
    · exact absurd h (by simp)

theorem matchBrTail_length {cs t : List Char} (h : matchBrTail cs = some t) :
    t.length < cs.length := by
  unfold matchBrTail at h
  have h1 := pySkipSpaces_length cs
  have h2 := dropSlash_length (pySkipSpaces cs)
  have h3 := pySkipSpaces_length (dropSlash (pySkipSpaces cs))
  have h4 := expectGt_length h
  omega

theorem matchBr_length {l r : List Char} (h : matchBr l = some r) :
    r.length + 4 ≤ l.length := by
  match l with
  | [] => simp [matchBr] at h
  | [a] => simp [matchBr] at h
  | [a, b] => simp [matchBr] at h
  | a :: c1 :: c2 :: rest =>
    simp only [matchBr] at h
    by_cases hcond : (a == '<' && isBrB c1 && isBrR c2) = true
    · rw [if_pos hcond] at h
      have := matchBrTail_length h
      simp only [List.length_cons]
      omega
    · rw [if_neg hcond] at h
      exact absurd h (by simp)

/-- If a `subBr` output suffix starts with a character other than the
inserted newline, that character was the head of the input there and no
match occurred at it. -/
theorem subBr_cons_elim {f : Nat} {u v : List Char} {d : Char}
    (hf : u.length ≤ f) (h : subBr f u = d :: v) (hd : ¬ d = '\n') :
    ∃ u' f', u = d :: u' ∧ subBr f' u' = v ∧ u'.length ≤ f' ∧ matchBr u = none := by
  match f, u with
  | 0, u =>
    have hu : u = [] := List.length_eq_zero.mp (Nat.le_zero.mp hf)
    subst hu
    simp [subBr] at h
  | f + 1, [] => simp [subBr] at h
  | f + 1, c :: cs =>
    rw [subBr] at h
    cases hm : matchBr (c :: cs) with
    | some rest =>
      rw [hm] at h
      injection h with h1 _
      exact absurd h1.symm hd
    | none =>
      rw [hm] at h
      injection h with h1 h2
      subst h1
      exact ⟨cs, f, rfl, h2, by simpa using hf, rfl⟩

theorem startsWithBrTag_elim {l : List Char} (h : startsWithBrTag l = true) :
    ∃ c1 c2 t, l = '<' :: c1 :: c2 :: '>' :: t ∧ isBrB c1 = true ∧ isBrR c2 = true := by
  match l with
  | [] => simp [startsWithBrTag] at h
  | [a] => simp [startsWithBrTag] at h
  | [a, b] => simp [startsWithBrTag] at h
  | [a, b, c] => simp [startsWithBrTag] at h
  | a :: c1 :: c2 :: d :: t =>
    unfold startsWithBrTag at h
    simp only [Bool.and_eq_true, beq_iff_eq] at h
    obtain ⟨⟨⟨ha, hb⟩, hr⟩, hd⟩ := h
    exact ⟨c1, c2, t, by rw [ha, hd], hb, hr⟩

theorem matchBr_of_literal {c1 c2 : Char} {t : List Char}
    (hb : isBrB c1 = true) (hr : isBrR c2 = true) :
    matchBr ('<' :: c1 :: c2 :: '>' :: t) = some t := by
  unfold matchBr
  have hskip : pySkipSpaces ('>' :: t) = '>' :: t := by
    unfold pySkipSpaces
    have : pyIsSpace '>' = false := by decide
    simp [this]
  have hdrop : dropSlash ('>' :: t) = '>' :: t := by
    unfold dropSlash
    have : ('>' == '/') = false := by decide
    simp [this]
  simp only [hb, hr, beq_self_eq_true, Bool.and_self, if_pos]
  unfold matchBrTail
  rw [hskip, hdrop, hskip]
  unfold expectGt
  simp

theorem hasBr_subBr (f : Nat) : ∀ l : List Char, l.length ≤ f → hasBrTag (subBr f l) = false := by
  induction f with
  | zero =>
    intro l hl
    have : l = [] := List.length_eq_zero.mp (Nat.le_zero.mp hl)
    subst this
    simp [subBr, hasBrTag]
  | succ f ih =>
    intro l hl
    match l with
    | [] => simp [subBr, hasBrTag]
    | c :: cs =>
      rw [subBr]
      cases hm : matchBr (c :: cs) with
      | some rest =>
        have hr : rest.length ≤ f := by
          have := matchBr_length hm
          simp only [List.length_cons] at hl this
          omega
        rw [hasBrTag, ih rest hr]
        have hsw : startsWithBrTag ('\n' :: subBr f rest) = false := by
          unfold startsWithBrTag
          match subBr f rest with
          | [] => rfl
          | [a] => rfl
          | [a, b] => rfl
          | a :: b :: d :: t => simp
        simp [hsw]
      | none =>
        have hcs : cs.length ≤ f := by simpa using hl
        rw [hasBrTag, ih cs hcs]
        suffices hs : startsWithBrTag (c :: subBr f cs) = false by simp [hs]
        by_contra hcon
        have hs : startsWithBrTag (c :: subBr f cs) = true := by
          revert hcon; cases startsWithBrTag (c :: subBr f cs) <;> simp
        obtain ⟨c1, c2, t, heq, hb, hr⟩ := startsWithBrTag_elim hs
        have hc : c = '<' := by injection heq
        have htail : subBr f cs = c1 :: c2 :: '>' :: t := by injection heq
        have hb' : ¬ c1 = '\n' := by
          have : c1 = 'b' ∨ c1 = 'B' := by
            revert hb; unfold isBrB; simp only [Bool.or_eq_true, beq_iff_eq]; exact id
          rcases this with h | h <;> simp [h]
        obtain ⟨u1, f1, hcs1, hsub1, hlen1, _⟩ := subBr_cons_elim hcs htail hb'
        have hr' : ¬ c2 = '\n' := by
          have : c2 = 'r' ∨ c2 = 'R' := by
            revert hr; unfold isBrR; simp only [Bool.or_eq_true, beq_iff_eq]; exact id
          rcases this with h | h <;> simp [h]
        obtain ⟨u2, f2, hcs2, hsub2, hlen2, _⟩ := subBr_cons_elim hlen1 hsub1 hr'
        obtain ⟨u3, f3, hcs3, _, _, _⟩ := subBr_cons_elim hlen2 hsub2 (by decide)
        have hfull : c :: cs = '<' :: c1 :: c2 :: '>' :: u3 := by
          rw [hc, hcs1, hcs2, hcs3]
        rw [hfull, matchBr_of_literal hb hr] at hm
        exact Option.noConfusion hm

/-- C1: for every input text, the output of `replace_br_tags.py`'s
substitution contains no occurrence of the substring `<br>` in any
letter case: the script removes all `<br>` tags from the output file. -/
theorem replace_br_removes_all_br_tags (s : List Char) :
    hasBrTag (replace_br_content s) = false :=
  hasBr_subBr s.length s (Nat.le_refl _)

example : replace_br_content "a<br>b<BR/>c<br >d<br<br>>e".toList =
    "a\nb\nc\nd<br\n>e".toList := by decide

theorem hashRun_replicate_append (n : Nat) (c : Char) (rest : List Char) (hc : ¬ c = '#') :
    hashRun (List.replicate n '#' ++ c :: rest) = n := by
  induction n with
  | zero =>
    simp only [List.replicate, List.nil_append, hashRun]
    have : (c == '#') = false := by simp [hc]
    simp [this]
  | succ n ih =>
    simp only [List.replicate_succ, List.cons_append, hashRun]
    simp [ih]

theorem headingHashMatch_replicate_append (n : Nat) (c : Char) (rest : List Char)
    (hc : pyIsSpace c = true) (hn : 1 ≤ n) :
    headingHashMatch (List.replicate n '#' ++ c :: rest) = true := by
  have hcn : ¬ c = '#' := by
    intro h; subst h; exact absurd hc (by decide)
  unfold headingHashMatch
  rw [hashRun_replicate_append n c rest hcn]
  have hdrop : (List.replicate n '#' ++ c :: rest).drop n = c :: rest := by
    rw [List.drop_append_eq_append_drop]
    simp
  rw [hdrop]
  simp [hn, hc]

theorem promoteLine_eq_of_not_match (l : List Char) (h : headingHashMatch l = false) :
    promoteLine l = l := by
  unfold promoteLine
  rw [h]
  split <;> rfl

/-- C2: `promote_headings` transforms each line independently; a line
matching `^(#+)\s` with at least two `#` has exactly its first `#`
removed (level `n ≥ 2` becomes level `n-1`); a level-1 heading is kept;
any line not matching the heading regex (which includes a line starting
with `#` not followed by `#`-then-whitespace, and every non-heading
line) is written back unchanged. -/
theorem promote_headings_spec :
    (∀ lines, promote_headings lines = lines.map promoteLine)
    ∧ (∀ n c rest, pyIsSpace c = true → 2 ≤ n →
        promoteLine (List.replicate n '#' ++ c :: rest) =
          List.replicate (n - 1) '#' ++ c :: rest)
    ∧ (∀ c rest, pyIsSpace c = true →
        promoteLine (List.replicate 1 '#' ++ c :: rest) = List.replicate 1 '#' ++ c :: rest)
    ∧ (∀ l, headingHashMatch l = false → promoteLine l = l) := by
  refine ⟨fun lines => rfl, ?_, ?_, promoteLine_eq_of_not_match⟩
  · intro n c rest hc hn
    have hcn : ¬ c = '#' := by
      intro h; subst h; exact absurd hc (by decide)
    obtain ⟨m, rfl⟩ : ∃ m, n = m + 2 := ⟨n - 2, by omega⟩
    unfold promoteLine
    have hsw : startsWithHash (List.replicate (m + 2) '#' ++ c :: rest) = true := by
      simp [List.replicate_succ, startsWithHash]
    rw [hsw]
    rw [headingHashMatch_replicate_append _ _ _ hc (by omega)]
    rw [hashRun_replicate_append _ _ _ hcn]
    rw [if_pos (show 1 < m + 2 by omega), if_pos rfl]
    have hdrop : (List.replicate (m + 2) '#' ++ c :: rest).drop 1 =
        List.replicate (m + 1) '#' ++ c :: rest := by
      simp [List.replicate_succ]
    simp [hdrop]
  · intro c rest hc
    have hcn : ¬ c = '#' := by
      intro h; subst h; exact absurd hc (by decide)
    unfold promoteLine
    have hsw : startsWithHash (List.replicate 1 '#' ++ c :: rest) = true := by
      simp [List.replicate_succ, startsWithHash]
    rw [hsw]
    rw [headingHashMatch_replicate_append _ _ _ hc (by omega)]
    rw [hashRun_replicate_append _ _ _ hcn]
    simp

/-- Closed instance of `promote_headings_spec`: a level-3 heading is
demoted to level 2, evaluated at a concrete line. -/
theorem promote_headings_spec_witness :
    promoteLine (List.replicate 3 '#' ++ ' ' :: 'T' :: []) =
      List.replicate 2 '#' ++ ' ' :: 'T' :: [] :=
  promote_headings_spec.2.1 3 ' ' ('T' :: []) (by decide) (by decide)


theorem generate_diagrams_aborts_no_render (e : DiagEnv) (argv : List (List Char))
    (h : e.graphvizImportable = false ∨ e.dotOnPath = false) :
    install_dependencies e = false ∧
    generate_diagrams_main e argv = ⟨[], [], []⟩ := by
  have hid : install_dependencies e = false := by
    unfold install_dependencies
    rcases h with h | h <;> simp [h]
  refine ⟨hid, ?_⟩
  unfold generate_diagrams_main
  simp [hid]

/-- Closed instance of `generate_diagrams_aborts_no_render` at a
concrete environment without the graphviz module. -/
theorem generate_diagrams_aborts_no_render_witness :
    install_dependencies ⟨false, true⟩ = false ∧
    generate_diagrams_main ⟨false, true⟩ ["input.md".toList] = ⟨[], [], []⟩ :=
  generate_diagrams_aborts_no_render ⟨false, true⟩ ["input.md".toList] (Or.inl rfl)

theorem pyDeleteOcc_length (old : List Char) (f : Nat) :
    ∀ l : List Char, (pyDeleteOcc old f l).length ≤ l.length := by
  induction f with
  | zero => intro l; simp [pyDeleteOcc]
  | succ f ih =>
    intro l
    match l with
    | [] => simp [pyDeleteOcc]
    | c :: cs =>
      rw [pyDeleteOcc]
      split
      · have h1 := ih ((c :: cs).drop old.length)
        have h2 : ((c :: cs).drop old.length).length ≤ (c :: cs).length := by
          rw [List.length_drop]; omega
        omega
      · have := ih cs
        simp only [List.length_cons]
        omega

theorem pyDeleteOcc_subset (old : List Char) (f : Nat) :
    ∀ l : List Char, ∀ c, c ∈ pyDeleteOcc old f l → c ∈ l := by
  induction f with
  | zero => intro l c h; simpa [pyDeleteOcc] using h
  | succ f ih =>
    intro l c h
    match l with
    | [] => simpa [pyDeleteOcc] using h
    | a :: cs =>
      rw [pyDeleteOcc] at h
      revert h
      split
      · intro h
        exact List.drop_subset _ _ (ih _ c h)
      · intro h
        rcases List.mem_cons.mp h with h | h
        · exact List.mem_cons.mpr (Or.inl h)
        · exact List.mem_cons.mpr (Or.inr (ih _ c h))

theorem foldlDeletes_length (olds : List (List Char)) :
    ∀ s : List Char,
      (olds.foldl (fun acc old => pyDeleteOcc old acc.length acc) s).length ≤ s.length := by
  induction olds with
  | nil => intro s; simp
  | cons o os ih =>
    intro s
    simp only [List.foldl_cons]
    exact le_trans (ih _) (pyDeleteOcc_length o s.length s)

theorem foldlDeletes_subset (olds : List (List Char)) :
    ∀ s : List Char, ∀ c,
      c ∈ olds.foldl (fun acc old => pyDeleteOcc old acc.length acc) s → c ∈ s := by
  induction olds with
  | nil => intro s c h; simpa using h
  | cons o os ih =>
    intro s c h
    simp only [List.foldl_cons] at h
    exact pyDeleteOcc_subset o s.length s c (ih _ c h)

theorem collapseSpaces_length : ∀ l : List Char, (collapseSpaces l).length ≤ l.length := by
  intro l
  induction l with
  | nil => simp [collapseSpaces]
  | cons c cs ih =>
    rw [collapseSpaces]
    split
    · exact le_trans ih (Nat.le_succ _)
    · simp only [List.length_cons]; omega

theorem collapseSpaces_subset : ∀ l : List Char, ∀ c, c ∈ collapseSpaces l → c ∈ l := by
  intro l
  induction l with
  | nil => intro c h; simpa [collapseSpaces] using h
  | cons a cs ih =>
    intro c h
    rw [collapseSpaces] at h
    revert h
    split
    · intro h; exact List.mem_cons.mpr (Or.inr (ih c h))
    · intro h
      rcases List.mem_cons.mp h with h | h
      · exact List.mem_cons.mpr (Or.inl h)
      · exact List.mem_cons.mpr (Or.inr (ih c h))

theorem tryOr_elim {a b : Option (List Char)} {r : List Char} (h : tryOr a b = some r) :
    a = some r ∨ (a = none ∧ b = some r) := by
  cases a with
  | some v =>
    left
    simpa [tryOr] using h
  | none =>
    right
    exact ⟨rfl, by simpa [tryOr] using h⟩

theorem expectNl_length {l r : List Char} (h : expectNl l = some r) : r.length < l.length := by
  match l with
  | [] => simp [expectNl] at h
  | c :: t =>
    simp only [expectNl] at h
    split at h
    · injection h with h; subst h; simp
    · exact absurd h (by simp)

theorem expectNl_subset {l r : List Char} (h : expectNl l = some r) :
    ∀ c, c ∈ r → c ∈ l := by
  match l with
  | [] => simp [expectNl] at h
  | c :: t =>
    simp only [expectNl] at h
    split at h
    · injection h with h; subst h
      intro x hx
      exact List.mem_cons.mpr (Or.inr hx)
    · exact absurd h (by simp)

theorem checkNlAt_length {t r : List Char} {k : Nat} (h : checkNlAt t k = some r) :
    r.length < t.length := by
  unfold checkNlAt at h
  have h1 := expectNl_length h
  have h2 : (t.drop k).length ≤ t.length := by rw [List.length_drop]; omega
  omega

theorem checkNlAt_subset {t r : List Char} {k : Nat} (h : checkNlAt t k = some r) :
    ∀ c, c ∈ r → c ∈ t := by
  unfold checkNlAt at h
  intro c hc
  exact List.drop_subset _ _ (expectNl_subset h c hc)

theorem findNlDesc_length {t r : List Char} :
    ∀ k, findNlDesc t k = some r → r.length < t.length := by
  intro k
  induction k with
  | zero => intro h; exact checkNlAt_length h
  | succ k ih =>
    intro h
    rw [findNlDesc] at h
    rcases tryOr_elim h with h | ⟨_, h⟩
    · exact checkNlAt_length h
    · exact ih h

theorem findNlDesc_subset {t r : List Char} :
    ∀ k, findNlDesc t k = some r → ∀ c, c ∈ r → c ∈ t := by
  intro k
  induction k with
  | zero => intro h; exact checkNlAt_subset h
  | succ k ih =>
    intro h
    rw [findNlDesc] at h
    rcases tryOr_elim h with h | ⟨_, h⟩
    · exact checkNlAt_subset h
    · exact ih h

theorem outerStep_length {t r : List Char} {k : Nat} (h : outerStep t k = some r) :
    r.length + 2 ≤ t.length := by
  unfold outerStep at h
  cases hc : checkNlAt t k with
  | none => rw [hc] at h; simp [stepInner] at h
  | some t2 =>
    rw [hc] at h
    simp only [stepInner] at h
    have h1 := findNlDesc_length (wsRunLen t2) h
    have h2 := checkNlAt_length hc
    omega

theorem outerStep_subset {t r : List Char} {k : Nat} (h : outerStep t k = some r) :
    ∀ c, c ∈ r → c ∈ t := by
  unfold outerStep at h
  cases hc : checkNlAt t k with
  | none => rw [hc] at h; simp [stepInner] at h
  | some t2 =>
    rw [hc] at h
    simp only [stepInner] at h
    intro c hcr
    exact checkNlAt_subset hc c (findNlDesc_subset (wsRunLen t2) h c hcr)

theorem outerNl_length {t r : List Char} :
    ∀ k, outerNl t k = some r → r.length + 2 ≤ t.length := by
  intro k
  induction k with
  | zero => intro h; exact outerStep_length h
  | succ k ih =>
    intro h
    rw [outerNl] at h
    rcases tryOr_elim h with h | ⟨_, h⟩
    · exact outerStep_length h
    · exact ih h

theorem outerNl_subset {t r : List Char} :
    ∀ k, outerNl t k = some r → ∀ c, c ∈ r → c ∈ t := by
  intro k
  induction k with
  | zero => intro h; exact outerStep_subset h
  | succ k ih =>
    intro h
    rw [outerNl] at h
    rcases tryOr_elim h with h | ⟨_, h⟩
    · exact outerStep_subset h
    · exact ih h

theorem matchTripleNl_length {l r : List Char} (h : matchTripleNl l = some r) :
    r.length + 3 ≤ l.length := by
  match l with
  | [] => simp [matchTripleNl] at h
  | c :: t =>
    rw [matchTripleNl] at h
    split at h
    · have := outerNl_length (wsRunLen t) h
      simp only [List.length_cons]
      omega
    · exact absurd h (by simp)

theorem matchTripleNl_subset {l r : List Char} (h : matchTripleNl l = some r) :
    ∀ c, c ∈ r → c ∈ l := by
  match l with
  | [] => simp [matchTripleNl] at h
  | a :: t =>
    rw [matchTripleNl] at h
    split at h
    · intro c hc
      exact List.mem_cons.mpr (Or.inr (outerNl_subset (wsRunLen t) h c hc))
    · exact absurd h (by simp)

theorem subTripleNl_length (f : Nat) :
    ∀ l : List Char, (subTripleNl f l).length ≤ l.length := by
  induction f with
  | zero => intro l; simp [subTripleNl]
  | succ f ih =>
    intro l
    match l with
    | [] => simp [subTripleNl]
    | c :: cs =>
      rw [subTripleNl]
      cases hm : matchTripleNl (c :: cs) with
      | some rest =>
        have h1 := ih rest
        have h2 := matchTripleNl_length hm
        simp only [List.length_cons] at h2 ⊢
        omega
      | none =>
        have := ih cs
        simp only [List.length_cons]
        omega

theorem subTripleNl_chars (f : Nat) :
    ∀ l : List Char, ∀ c, c ∈ subTripleNl f l → c ∈ l ∨ c = '\n' := by
  induction f with
  | zero => intro l c h; exact Or.inl (by simpa [subTripleNl] using h)
  | succ f ih =>
    intro l c h
    match l with
    | [] => simp [subTripleNl] at h
    | a :: cs =>
      rw [subTripleNl] at h
      revert h
      cases hm : matchTripleNl (a :: cs) with
      | some rest =>
        intro h
        rcases List.mem_cons.mp h with h | h
        · exact Or.inr h
        rcases List.mem_cons.mp h with h | h
        · exact Or.inr h
        rcases ih rest c h with h | h
        · exact Or.inl (matchTripleNl_subset hm c h)
        · exact Or.inr h
      | none =>
        intro h
        rcases List.mem_cons.mp h with h | h
        · exact Or.inl (List.mem_cons.mpr (Or.inl h))
        rcases ih cs c h with h | h
        · exact Or.inl (List.mem_cons.mpr (Or.inr h))
        · exact Or.inr h

/-- C10: `remove_emojis` never lengthens its input; each of its four
steps replaces matched text with text of smaller or equal length, so the
character count `main` prints as `Removed` is never negative. -/
theorem remove_emojis_never_lengthens (s : List Char) :
    (remove_emojis s).length ≤ s.length := by
  simp only [remove_emojis]
  have h1 : (emojiSub s).length ≤ s.length := List.length_filter_le _ _
  have h2 := foldlDeletes_length mojibakeLiterals (emojiSub s)
  have h3 := collapseSpaces_length (applyMojibakeDeletes (emojiSub s))
  have h4 := subTripleNl_length (collapseSpaces (applyMojibakeDeletes (emojiSub s))).length
    (collapseSpaces (applyMojibakeDeletes (emojiSub s)))
  unfold applyMojibakeDeletes at h3 h4 ⊢
  omega

theorem remove_emojis_no_enumerated_char (s : List Char) (c : Char)
    (h : c ∈ remove_emojis s) : inEmojiClass c = false := by
  simp only [remove_emojis] at h
  rcases subTripleNl_chars _ _ c h with h | h
  · have h2 := collapseSpaces_subset _ c h
    have h3 := foldlDeletes_subset mojibakeLiterals _ c h2
    have h4 := List.mem_filter.mp h3
    simpa using h4.2
  · subst h
    decide

/-- Closed instance of `remove_emojis_no_enumerated_char`: the letter
`a` survives next to a removed emoticon and is not in the class. -/
theorem remove_emojis_no_enumerated_char_witness :
    'a' ∈ remove_emojis ('a' :: [Char.ofNat 0x1F600]) ∧ inEmojiClass 'a' = false :=
  ⟨by decide, remove_emojis_no_enumerated_char ('a' :: [Char.ofNat 0x1F600]) 'a' (by decide)⟩

/-- C3 counterexample: U+1F7E0 (ORANGE CIRCLE, an emoji added in Emoji
12.0) lies in none of the ranges the regex enumerates, and
`remove_emojis` returns it unchanged, so an emoji code point can remain
in the output. -/
theorem remove_emojis_keeps_orange_circle :
    remove_emojis [Char.ofNat 0x1F7E0] = [Char.ofNat 0x1F7E0] ∧
    inEmojiClass (Char.ofNat 0x1F7E0) = false := by decide

theorem splitNl_ne_nil (s : List Char) : splitNl s ≠ [] := by
  match s with
  | [] => simp [splitNl]
  | c :: cs =>
    rw [splitNl]
    split
    · simp
    · cases h : splitNl cs with
      | nil => simp
      | cons seg rest => simp

theorem splitNl_no_newline : ∀ (s : List Char) (l : List Char), l ∈ splitNl s → ¬ '\n' ∈ l := by
  intro s
  induction s with
  | nil =>
    intro l h
    simp only [splitNl, List.mem_singleton] at h
    subst h
    simp
  | cons c cs ih =>
    intro l h
    rw [splitNl] at h
    by_cases hc : (c == '\n') = true
    · rw [if_pos hc] at h
      rcases List.mem_cons.mp h with h | h
      · subst h; simp
      · exact ih l h
    · rw [if_neg hc] at h
      have hcn : ¬ c = '\n' := by simpa using hc
      cases hs : splitNl cs with
      | nil =>
        rw [hs] at h
        simp only [List.mem_singleton] at h
        subst h
        intro hmem
        rcases List.mem_cons.mp hmem with h | h
        · exact hcn h.symm
        · simp at h
      | cons seg rest =>
        rw [hs] at h
        rcases List.mem_cons.mp h with h | h
        · subst h
          intro hmem
          rcases List.mem_cons.mp hmem with h | h
          · exact hcn h.symm
          · have hseg : seg ∈ splitNl cs := by rw [hs]; exact List.mem_cons.mpr (Or.inl rfl)
            exact ih seg hseg h
        · have hl : l ∈ splitNl cs := by rw [hs]; exact List.mem_cons.mpr (Or.inr h)
          exact ih l hl

theorem splitNl_single {l : List Char} (h : ¬ '\n' ∈ l) : splitNl l = [l] := by
  induction l with
  | nil => rfl
  | cons c cs ih =>
    have hc : (c == '\n') = false := by
      simp only [beq_eq_false_iff_ne, ne_eq]
      intro hcc
      exact h (by rw [hcc]; exact List.mem_cons.mpr (Or.inl rfl))
    have hcs : ¬ '\n' ∈ cs := fun hm => h (List.mem_cons.mpr (Or.inr hm))
    rw [splitNl, if_neg (by simp [hc]), ih hcs]

theorem splitNl_append_nl {l : List Char} (rest : List Char) (h : ¬ '\n' ∈ l) :
    splitNl (l ++ '\n' :: rest) = l :: splitNl rest := by
  induction l with
  | nil =>
    simp only [List.nil_append]
    rw [splitNl, if_pos (by simp)]
  | cons c cs ih =>
    have hc : (c == '\n') = false := by
      simp only [beq_eq_false_iff_ne, ne_eq]
      intro hcc
      exact h (by rw [hcc]; exact List.mem_cons.mpr (Or.inl rfl))
    have hcs : ¬ '\n' ∈ cs := fun hm => h (List.mem_cons.mpr (Or.inr hm))
    simp only [List.cons_append]
    rw [splitNl, if_neg (by simp [hc]), ih hcs]

theorem splitNl_joinNl : ∀ out : List (List Char), out ≠ [] →
    (∀ l ∈ out, ¬ '\n' ∈ l) → splitNl (joinNl out) = out := by
  intro out
  induction out with
  | nil => intro h; exact absurd rfl h
  | cons l ls ih =>
    intro _ hnl
    cases ls with
    | nil =>
      rw [joinNl]
      exact splitNl_single (hnl l (List.mem_cons.mpr (Or.inl rfl)))
    | cons l2 ls2 =>
      rw [joinNl, splitNl_append_nl _ (hnl l (List.mem_cons.mpr (Or.inl rfl)))]
      rw [ih (by simp) (fun x hx => hnl x (List.mem_cons.mpr (Or.inr hx)))]

theorem addNlLoop_ne_nil (prev : Option (List Char)) (inCode : Bool)
    (ls : List (List Char)) (h : ls ≠ []) : addNlLoop prev inCode ls ≠ [] := by
  cases ls with
  | nil => exact absurd rfl h
  | cons a as =>
    rw [addNlLoop]
    split
    · simp
    · split
      · simp
      · split
        · simp
        · simp

theorem addNlLoop_mem : ∀ (ls : List (List Char)) (prev : Option (List Char)) (inCode : Bool)
    (l : List Char), l ∈ addNlLoop prev inCode ls → l ∈ ls ∨ l = [] := by
  intro ls
  induction ls with
  | nil => intro prev inCode l h; simp [addNlLoop] at h
  | cons a as ih =>
    intro prev inCode l h
    rw [addNlLoop] at h
    by_cases hf : is_code_fence a = true
    · rw [if_pos hf] at h
      rcases List.mem_cons.mp h with h | h
      · exact Or.inl (List.mem_cons.mpr (Or.inl h))
      · rcases ih _ _ _ h with h | h
        · exact Or.inl (List.mem_cons.mpr (Or.inr h))
        · exact Or.inr h
    · rw [if_neg hf] at h
      by_cases hic : inCode = true
      · rw [if_pos hic] at h
        rcases List.mem_cons.mp h with h | h
        · exact Or.inl (List.mem_cons.mpr (Or.inl h))
        · rcases ih _ _ _ h with h | h
          · exact Or.inl (List.mem_cons.mpr (Or.inr h))
          · exact Or.inr h
      · rw [if_neg hic] at h
        by_cases hcond : (is_list_item a && prevTriggers prev) = true
        · rw [if_pos hcond] at h
          rcases List.mem_cons.mp h with h | h
          · exact Or.inr h
          rcases List.mem_cons.mp h with h | h
          · exact Or.inl (List.mem_cons.mpr (Or.inl h))
          · rcases ih _ _ _ h with h | h
            · exact Or.inl (List.mem_cons.mpr (Or.inr h))
            · exact Or.inr h
        · rw [if_neg hcond] at h
          rcases List.mem_cons.mp h with h | h
          · exact Or.inl (List.mem_cons.mpr (Or.inl h))
          · rcases ih _ _ _ h with h | h
            · exact Or.inl (List.mem_cons.mpr (Or.inr h))
            · exact Or.inr h

theorem addNlLoop_idem : ∀ (ls : List (List Char)) (prev : Option (List Char)) (inCode : Bool),
    addNlLoop prev inCode (addNlLoop prev inCode ls) = addNlLoop prev inCode ls := by
  have hfe : is_code_fence ([] : List Char) = false := by decide
  have hle : is_list_item ([] : List Char) = false := by decide
  have hbe : is_blank_line ([] : List Char) = true := by decide
  intro ls
  induction ls with
  | nil => intro prev inCode; rfl
  | cons a as ih =>
    intro prev inCode
    by_cases hf : is_code_fence a = true
    · have hinner : addNlLoop prev inCode (a :: as) =
          a :: addNlLoop (some a) (!inCode) as := by
        simp only [addNlLoop]
        rw [if_pos hf]
      rw [hinner]
      simp only [addNlLoop]
      rw [if_pos hf, ih]
    · by_cases hic : inCode = true
      · have hinner : addNlLoop prev inCode (a :: as) =
            a :: addNlLoop (some a) inCode as := by
          simp only [addNlLoop]
          rw [if_neg hf, if_pos hic]
        rw [hinner]
        simp only [addNlLoop]
        rw [if_neg hf, if_pos hic, ih]
      · by_cases hcond : (is_list_item a && prevTriggers prev) = true
        · have hinner : addNlLoop prev inCode (a :: as) =
              [] :: a :: addNlLoop (some a) inCode as := by
            simp only [addNlLoop]
            rw [if_neg hf, if_neg hic, if_pos hcond]
          rw [hinner]
          have hc0 : ¬ (is_list_item ([] : List Char) && prevTriggers prev) = true := by
            rw [hle]; simp
          have hpt : prevTriggers (some ([] : List Char)) = false := by
            simp [prevTriggers, hbe]
          have hc1 : ¬ (is_list_item a && prevTriggers (some ([] : List Char))) = true := by
            rw [hpt]; simp
          have hfe' : ¬ is_code_fence ([] : List Char) = true := by rw [hfe]; simp
          simp only [addNlLoop]
          rw [if_neg hfe', if_neg hic, if_neg hc0, if_neg hf, if_neg hic, if_neg hc1, ih]
        · have hinner : addNlLoop prev inCode (a :: as) =
              a :: addNlLoop (some a) inCode as := by
            simp only [addNlLoop]
            rw [if_neg hf, if_neg hic, if_neg hcond]
          rw [hinner]
          simp only [addNlLoop]
          rw [if_neg hf, if_neg hic, if_neg hcond, ih]

/-- C9: `add_newlines_before_lists` is idempotent: after one pass every
list item outside a code fence is preceded by a blank line or a list
item, so a second pass inserts nothing. -/
theorem add_newlines_before_lists_idempotent (s : List Char) :
    add_newlines_before_lists (add_newlines_before_lists s) =
      add_newlines_before_lists s := by
  unfold add_newlines_before_lists
  have hne : addNlLoop none false (splitNl s) ≠ [] :=
    addNlLoop_ne_nil _ _ _ (splitNl_ne_nil s)
  have hnl : ∀ l ∈ addNlLoop none false (splitNl s), ¬ '\n' ∈ l := by
    intro l hl
    rcases addNlLoop_mem _ _ _ _ hl with h | h
    · exact splitNl_no_newline s l h
    · subst h; simp
  rw [splitNl_joinNl _ hne hnl, addNlLoop_idem]

example :
    add_newlines_before_lists "text\n- a\n- b".toList = "text\n\n- a\n- b".toList := by decide

theorem isPrefixOf_false_head {pat : List Char} {c : Char} {y : List Char}
    (hne : pat ≠ []) (hnm : ¬ c ∈ pat) : ¬ pat.isPrefixOf (c :: y) = true := by
  intro h
  obtain ⟨t, ht⟩ := List.isPrefixOf_iff_prefix.mp h
  cases pat with
  | nil => exact hne rfl
  | cons p pt =>
    rw [List.cons_append] at ht
    injection ht with h1 _
    exact hnm (by rw [h1]; exact List.mem_cons.mpr (Or.inl rfl))

theorem posCount_cons_excluded {pat : List Char} {c : Char} {y : List Char}
    (hne : pat ≠ []) (hnm : ¬ c ∈ pat) : posCount pat (c :: y) = posCount pat y := by
  rw [posCount, if_neg (isPrefixOf_false_head hne hnm)]
  simp

theorem isPrefixOf_append_sep {pat : List Char} {c : Char} (x y : List Char)
    (hne : pat ≠ []) (hnm : ¬ c ∈ pat) :
    pat.isPrefixOf (x ++ c :: y) = pat.isPrefixOf x := by
  cases hp : pat.isPrefixOf x with
  | true =>
    obtain ⟨t, ht⟩ := List.isPrefixOf_iff_prefix.mp hp
    have : pat <+: x ++ c :: y := ⟨t ++ c :: y, by rw [← List.append_assoc, ht]⟩
    exact List.isPrefixOf_iff_prefix.mpr this
  | false =>
    by_contra hcon
    have hw : pat.isPrefixOf (x ++ c :: y) = true := by
      revert hcon; cases pat.isPrefixOf (x ++ c :: y) <;> simp
    have hpre := List.isPrefixOf_iff_prefix.mp hw
    have htake := List.prefix_iff_eq_take.mp hpre
    rw [List.take_append_eq_append_take] at htake
    by_cases hlen : pat.length ≤ x.length
    · have hz : pat.length - x.length = 0 := by omega
      rw [hz] at htake
      simp only [List.take_zero, List.append_nil] at htake
      have : pat <+: x := List.prefix_iff_eq_take.mpr htake
      rw [List.isPrefixOf_iff_prefix.mpr this] at hp
      exact Bool.noConfusion hp
    · obtain ⟨m, hm⟩ : ∃ m, pat.length - x.length = m + 1 := ⟨pat.length - x.length - 1, by omega⟩
      rw [hm] at htake
      have hxfull : x.take pat.length = x := List.take_of_length_le (by omega)
      rw [hxfull] at htake
      simp only [List.take_succ_cons] at htake
      exact hnm (by rw [htake]; exact List.mem_append.mpr (Or.inr (List.mem_cons.mpr (Or.inl rfl))))

theorem posCount_append_sep {pat : List Char} {c : Char} (x y : List Char)
    (hne : pat ≠ []) (hnm : ¬ c ∈ pat) :
    posCount pat (x ++ c :: y) = posCount pat x + posCount pat y := by
  induction x with
  | nil =>
    rw [List.nil_append, posCount_cons_excluded hne hnm]
    simp [posCount]
  | cons a x' ih =>
    have hh : (a :: x') ++ c :: y = a :: (x' ++ c :: y) := by simp
    rw [hh, posCount, posCount, ih, ← hh, isPrefixOf_append_sep (a :: x') y hne hnm]
    omega

theorem occursIn_false_posCount {pat : List Char} : ∀ l : List Char,
    occursIn pat l = false → posCount pat l = 0 := by
  intro l
  induction l with
  | nil => intro _; rfl
  | cons c cs ih =>
    intro h
    rw [occursIn] at h
    have h1 : pat.isPrefixOf (c :: cs) = false := by
      revert h; cases pat.isPrefixOf (c :: cs) <;> simp
    have h2 : occursIn pat cs = false := by
      revert h; cases occursIn pat cs <;> simp
    rw [posCount, ih h2, if_neg (by rw [h1]; simp)]

theorem posCount_eq_zero_of_no_pos {pat : List Char} : ∀ s : List Char,
    (∀ p, ¬ pat.isPrefixOf (s.drop p) = true) → posCount pat s = 0 := by
  intro s
  induction s with
  | nil => intro _; rfl
  | cons c cs ih =>
    intro h
    rw [posCount, if_neg (by simpa using h 0)]
    have : ∀ p, ¬ pat.isPrefixOf (cs.drop p) = true := by
      intro p hp
      exact h (p + 1) (by rw [List.drop_succ_cons]; exact hp)
    rw [ih this]

theorem posCount_le_one_of_unique_pos {pat : List Char} : ∀ s : List Char,
    (∀ p q, pat.isPrefixOf (s.drop p) = true → pat.isPrefixOf (s.drop q) = true → p = q) →
    posCount pat s ≤ 1 := by
  intro s
  induction s with
  | nil => intro _; simp [posCount]
  | cons c cs ih =>
    intro h
    rw [posCount]
    cases hp : pat.isPrefixOf (c :: cs) with
    | false =>
      simp only [Bool.false_eq_true, if_false, Nat.zero_add]
      refine ih (fun p q hpp hqq => ?_)
      have := h (p + 1) (q + 1)
        (by rw [List.drop_succ_cons]; exact hpp)
        (by rw [List.drop_succ_cons]; exact hqq)
      omega
    | true =>
      rw [if_pos rfl]
      have hz : posCount pat cs = 0 := by
        refine posCount_eq_zero_of_no_pos cs (fun p hpp => ?_)
        have h0 : pat.isPrefixOf ((c :: cs).drop 0) = true := by simpa using hp
        have hp1 : pat.isPrefixOf ((c :: cs).drop (p + 1)) = true := by
          rw [List.drop_succ_cons]; exact hpp
        have := h 0 (p + 1) h0 hp1
        omega
      omega

theorem dot_pos_unique {X Y : List Char} (hX : ¬ '.' ∈ X) (hY : ¬ '.' ∈ Y) {x : Nat}
    (h : (X ++ '.' :: Y)[x]? = some '.') : x = X.length := by
  rw [List.getElem?_append] at h
  split at h
  · exfalso
    obtain ⟨hlt, hget⟩ := List.getElem?_eq_some.mp h
    exact hX (hget ▸ List.getElem_mem hlt)
  · next hge =>
    cases hd : x - X.length with
    | zero => omega
    | succ m =>
      rw [hd] at h
      exfalso
      simp only [List.getElem?_cons_succ] at h
      obtain ⟨hlt, hget⟩ := List.getElem?_eq_some.mp h
      exact hY (hget ▸ List.getElem_mem hlt)

theorem prefix_getElem_dot {pat s : List Char} {p j : Nat}
    (hpre : pat.isPrefixOf (s.drop p) = true) (hj : pat[j]? = some '.') :
    s[p + j]? = some '.' := by
  obtain ⟨t, ht⟩ := List.isPrefixOf_iff_prefix.mp hpre
  have hjlt : j < pat.length := (List.getElem?_eq_some.mp hj).1
  have h1 : (s.drop p)[j]? = pat[j]? := by
    rw [← ht, List.getElem?_append_left hjlt]
  rw [← List.getElem?_drop, h1, hj]

theorem pat_dot_at (n png' : List Char) : (n ++ '.' :: png')[n.length]? = some '.' := by
  rw [List.getElem?_append_right (Nat.le_refl _)]
  simp

theorem matchNameAfter_some {pre suffix l w : List Char}
    (h : matchNameAfter pre suffix l = some w) :
    w ≠ [] ∧ ∀ c ∈ w, isWordChar c = true := by
  simp only [matchNameAfter] at h
  split at h
  · split at h
    · exact absurd h (by simp)
    · next hw =>
      split at h
      · injection h with h
        subst h
        refine ⟨fun hnil => hw (by rw [hnil]; rfl), fun c hc => List.mem_takeWhile_imp hc⟩
      · exact absurd h (by simp)
  · exact absurd h (by simp)

theorem searchNamed_some {pre suffix : List Char} : ∀ (f : Nat) (l w : List Char),
    searchNamed pre suffix f l = some w → w ≠ [] ∧ ∀ c ∈ w, isWordChar c = true := by
  intro f
  induction f with
  | zero => intro l w h; simp [searchNamed] at h
  | succ f ih =>
    intro l w h
    match l with
    | [] => simp [searchNamed] at h
    | c :: cs =>
      rw [searchNamed] at h
      cases hm : matchNameAfter pre suffix (c :: cs) with
      | some w0 =>
        rw [hm] at h
        injection h with h
        subst h
        exact matchNameAfter_some hm
      | none =>
        rw [hm] at h
        exact ih cs w h

theorem extract_pattern_name_chars {code n : List Char}
    (h : extract_pattern_name code = some n) :
    n ≠ [] ∧ ∀ c ∈ n, isWordChar c = true := by
  unfold extract_pattern_name at h
  cases hs : searchNamed "docs/images/".toList ".png".toList (code.length + 1) code with
  | some w =>
    rw [hs] at h
    injection h with h
    subst h
    exact searchNamed_some _ _ _ hs
  | none =>
    rw [hs] at h
    exact searchNamed_some _ _ _ h

theorem isWordChar_ne_dot {c : Char} (h : isWordChar c = true) : ¬ c = '.' := by
  intro hc
  subst hc
  exact absurd h (by decide)

theorem isWordChar_ne_nl {c : Char} (h : isWordChar c = true) : ¬ c = '\n' := by
  intro hc
  subst hc
  exact absurd h (by decide)

theorem pyToUpper_ne_dot {c : Char} (h : ¬ c = '.') : ¬ pyToUpper c = '.' := by
  unfold pyToUpper
  split <;> first | decide | exact h

theorem pyToLower_ne_dot {c : Char} (h : ¬ c = '.') : ¬ pyToLower c = '.' := by
  unfold pyToLower
  split <;> first | decide | exact h

theorem underscoreToSpace_ne_dot {c : Char} (h : isWordChar c = true) :
    ¬ underscoreToSpace c = '.' := by
  unfold underscoreToSpace
  split
  · decide
  · exact isWordChar_ne_dot h

theorem pyTitleGo_ne_dot : ∀ (l : List Char) (b : Bool),
    (∀ c ∈ l, ¬ c = '.') → ∀ d ∈ pyTitleGo b l, ¬ d = '.' := by
  intro l
  induction l with
  | nil => intro b _ d hd; simp [pyTitleGo] at hd
  | cons c cs ih =>
    intro b hl d hd
    rw [pyTitleGo] at hd
    by_cases ha : isAsciiAlpha c = true
    · rw [if_pos ha] at hd
      rcases List.mem_cons.mp hd with hd | hd
      · subst hd
        have hc := hl c (List.mem_cons.mpr (Or.inl rfl))
        cases b with
        | true => simpa using pyToLower_ne_dot hc
        | false => simpa using pyToUpper_ne_dot hc
      · exact ih true (fun x hx => hl x (List.mem_cons.mpr (Or.inr hx))) d hd
    · rw [if_neg ha] at hd
      rcases List.mem_cons.mp hd with hd | hd
      · subst hd
        exact hl d (List.mem_cons.mpr (Or.inl rfl))
      · exact ih false (fun x hx => hl x (List.mem_cons.mpr (Or.inr hx))) d hd

theorem pyTitle_map_ne_dot {n : List Char} (hword : ∀ c ∈ n, isWordChar c = true) :
    ∀ d ∈ pyTitle (n.map underscoreToSpace), ¬ d = '.' := by
  refine pyTitleGo_ne_dot _ false (fun c hc => ?_)
  obtain ⟨a, ha, rfl⟩ := List.mem_map.mp hc
  exact underscoreToSpace_ne_dot (hword a ha)

/-- C7 (amended): the branch behaviour of `replace_diagram_section` on a
matched section, and the no-duplicate guarantee restricted to the case
the code actually checks: if every existing `<pattern>.png` reference of
the following text lies within its first 200 characters (and the header
has none), the output holds at most one reference for the pattern. -/
theorem replace_diagram_section_spec (header code after n : List Char)
    (hx : extract_pattern_name code = some n) :
    (occursIn (n ++ ".png".toList) (after.take 200) = true →
      replace_diagram_section header code after = header ++ "\n\n".toList ++ after)
    ∧ (occursIn (n ++ ".png".toList) (after.take 200) = false →
      replace_diagram_section header code after =
        header ++ "\n\n".toList ++ pngRef n ++ after)
    ∧ (posCount (n ++ ".png".toList) header = 0 →
      posCount (n ++ ".png".toList) after = posCount (n ++ ".png".toList) (after.take 200) →
      posCount (n ++ ".png".toList) (replace_diagram_section header code after) ≤
        max 1 (posCount (n ++ ".png".toList) after)) := by
  obtain ⟨hne, hword⟩ := extract_pattern_name_chars hx
  have hbrT : occursIn (n ++ ".png".toList) (after.take 200) = true →
      replace_diagram_section header code after = header ++ "\n\n".toList ++ after := by
    intro hocc
    unfold replace_diagram_section
    rw [hx]
    simp only [if_pos hocc]
  have hbrF : occursIn (n ++ ".png".toList) (after.take 200) = false →
      replace_diagram_section header code after =
        header ++ "\n\n".toList ++ pngRef n ++ after := by
    intro hocc
    unfold replace_diagram_section
    rw [hx]
    simp only [hocc, Bool.false_eq_true, if_false]
  refine ⟨hbrT, hbrF, ?_⟩
  intro hH hW
  have hpne : (n ++ ".png".toList) ≠ [] := by
    intro hh
    exact absurd (List.append_eq_nil.mp hh).2 (by decide)
  have hnl : ¬ '\n' ∈ (n ++ ".png".toList) := by
    intro hm
    rcases List.mem_append.mp hm with hm | hm
    · exact isWordChar_ne_nl (hword _ hm) rfl
    · exact absurd hm (by decide)
  cases hocc : occursIn (n ++ ".png".toList) (after.take 200) with
  | true =>
    rw [hbrT hocc]
    have hsh : header ++ "\n\n".toList ++ after = header ++ '\n' :: ('\n' :: after) := by
      simp
    rw [hsh, posCount_append_sep header ('\n' :: after) hpne hnl, hH,
      posCount_cons_excluded hpne hnl]
    simp
  | false =>
    have hafter0 : posCount (n ++ ".png".toList) after = 0 := by
      rw [hW, occursIn_false_posCount _ hocc]
    rw [hbrF hocc]
    have hsh : header ++ "\n\n".toList ++ pngRef n ++ after =
        header ++ '\n' :: ('\n' :: (pngRef n ++ after)) := by
      simp
    rw [hsh, posCount_append_sep header ('\n' :: (pngRef n ++ after)) hpne hnl, hH,
      posCount_cons_excluded hpne hnl]
    have hshape : pngRef n ++ after =
        (("![".toList ++ pyTitle (n.map underscoreToSpace) ++
          " Architecture](docs/images/".toList ++ n) ++ '.' :: "png)".toList) ++
          '\n' :: ('\n' :: after) := by
      rw [pngRef]
      rw [show ".png)\n\n".toList = '.' :: "png)".toList ++ '\n' :: '\n' :: [] from by decide]
      simp
    rw [hshape,
      posCount_append_sep _ ('\n' :: after) hpne hnl,
      posCount_cons_excluded hpne hnl, hafter0]
    have hcore : posCount (n ++ ".png".toList)
        (("![".toList ++ pyTitle (n.map underscoreToSpace) ++
          " Architecture](docs/images/".toList ++ n) ++ '.' :: "png)".toList) ≤ 1 := by
      refine posCount_le_one_of_unique_pos _ (fun p q hp hq => ?_)
      have hX : ¬ '.' ∈ ("![".toList ++ pyTitle (n.map underscoreToSpace) ++
          " Architecture](docs/images/".toList ++ n) := by
        intro hm
        rcases List.mem_append.mp hm with hm | hm
        · rcases List.mem_append.mp hm with hm | hm
          · rcases List.mem_append.mp hm with hm | hm
            · exact absurd hm (by decide)
            · exact pyTitle_map_ne_dot hword _ hm rfl
          · exact absurd hm (by decide)
        · exact isWordChar_ne_dot (hword _ hm) rfl
      have hY : ¬ '.' ∈ "png)".toList := by decide
      have hdotpat : (n ++ ".png".toList)[n.length]? = some '.' := by
        rw [show ".png".toList = '.' :: "png".toList from by decide]
        exact pat_dot_at n _
      have hpd := dot_pos_unique hX hY (prefix_getElem_dot hp hdotpat)
      have hqd := dot_pos_unique hX hY (prefix_getElem_dot hq hdotpat)
      omega
    omega

/-- Closed instance of `replace_diagram_section_spec`: a section whose
following text holds no reference gains exactly one PNG reference. -/
theorem replace_diagram_section_spec_witness :
    replace_diagram_section "## Architecture Diagram\n".toList
        "save to diagrams/foo.py".toList "text".toList =
      "## Architecture Diagram\n".toList ++ "\n\n".toList ++
        pngRef "foo".toList ++ "text".toList :=
  (replace_diagram_section_spec "## Architecture Diagram\n".toList
    "save to diagrams/foo.py".toList "text".toList "foo".toList (by decide)).2.1 (by decide)

set_option maxRecDepth 8000 in
/-- C7 counterexample: when the only existing reference of the section
sits beyond the first 200 characters of the following text, the code
inserts a second reference: the section gains a duplicate PNG reference
for its pattern. -/
theorem replace_diagram_section_duplicate :
    posCount "foo.png".toList
        (replace_diagram_section "## Architecture Diagram\n".toList
          "plt.savefig('docs/images/foo.png')".toList
          (List.replicate 200 'x' ++ "![Foo Architecture](docs/images/foo.png)\n".toList)) = 2 ∧
    posCount "foo.png".toList
        (List.replicate 200 'x' ++ "![Foo Architecture](docs/images/foo.png)\n".toList) = 1 := by
  decide

theorem goBack_congr_le (lines cur : List (List Char)) :
    ∀ (cnt i : Nat), (∀ k, k ≤ i → cur.getD k [] = lines.getD k []) →
      goBack cur i cnt = goBack lines i cnt := by
  intro cnt
  induction cnt with
  | zero => intro i _; rfl
  | succ cnt ih =>
    intro i hag
    rw [goBack, goBack, hag i (Nat.le_refl _)]
    rw [ih (i - 1) (fun k hk => hag k (by omega))]

theorem find_pattern_congr (lines cur : List (List Char)) (s : Nat)
    (hag : ∀ k, k ≤ s + 1 → cur.getD k [] = lines.getD k []) :
    find_pattern_name_before_line cur s = find_pattern_name_before_line lines s := by
  unfold find_pattern_name_before_line
  exact goBack_congr_le lines cur _ _ (fun k hk => hag k (by omega))

theorem sectionStep_congr (fs : List Char → Option (List Char)) (lines cur : List (List Char))
    (s : Nat) (hlen : cur.length = lines.length)
    (hag : ∀ k, k ≤ s + 1 → cur.getD k [] = lines.getD k []) :
    sectionStep fs cur s =
      if sectionSuccess fs lines s = true then cur.set (s + 1) (sectionNewLine fs lines s)
      else cur := by
  have hfp := find_pattern_congr lines cur s hag
  unfold sectionStep sectionSuccess sectionNewLine
  rw [hfp, hlen, hag (s + 1) (Nat.le_refl _)]
  by_cases hb : (s + 1 < lines.length && (pyStrip (lines.getD (s + 1) [])).isEmpty) = true
  · rw [if_pos hb]
    cases hh : find_pattern_name_before_line lines s with
    | none => simp [hb]
    | some header =>
      cases hp : pattern_name_to_filename header with
      | none => simp [hb, hp]
      | some fname =>
        cases hf : fs fname with
        | none => simp [hb, hp, hf]
        | some code =>
          have hprop : s + 1 < lines.length ∧ pyStrip (lines[s + 1]?.getD []) = [] := by
            rcases Bool.and_eq_true_iff.mp hb with ⟨h1, h2⟩
            refine ⟨of_decide_eq_true h1, ?_⟩
            simpa [List.getD_eq_getElem?_getD] using List.isEmpty_iff.mp h2
          have h2' : pyStrip (lines[s + 1]?.getD []) = [] := hprop.2
          rw [List.getElem?_eq_getElem hprop.1] at h2'
          simp only [Option.getD_some] at h2'
          simp [hb, hp, hf, hprop.1, h2']
  · rw [if_neg hb]
    have hbn : ¬(s + 1 < lines.length ∧ pyStrip (lines[s + 1]?.getD []) = []) := by
      intro hcon
      obtain ⟨h1, h2⟩ := hcon
      apply hb
      refine Bool.and_eq_true_iff.mpr ⟨decide_eq_true h1, ?_⟩
      rw [List.isEmpty_iff]
      simpa [List.getD_eq_getElem?_getD] using h2
    simp [hbn]

theorem positionsFrom_ge (p : List Char → Bool) :
    ∀ (ls : List (List Char)) (i s : Nat), s ∈ positionsFrom p i ls → i ≤ s := by
  intro ls
  induction ls with
  | nil => intro i s h; simp [positionsFrom] at h
  | cons l ls ih =>
    intro i s h
    rw [positionsFrom] at h
    by_cases hp : p l = true
    · rw [if_pos hp] at h
      rcases List.mem_cons.mp h with rfl | h
      · exact Nat.le_refl _
      · have := ih (i + 1) s h; omega
    · rw [if_neg hp] at h
      have := ih (i + 1) s h; omega

theorem positionsFrom_sorted (p : List Char → Bool) :
    ∀ (ls : List (List Char)) (i : Nat), List.Pairwise (· < ·) (positionsFrom p i ls) := by
  intro ls
  induction ls with
  | nil => intro i; simp [positionsFrom]
  | cons l ls ih =>
    intro i
    rw [positionsFrom]
    split
    · refine List.pairwise_cons.mpr ⟨fun s hs => ?_, ih (i + 1)⟩
      have := positionsFrom_ge p ls (i + 1) s hs
      omega
    · exact ih (i + 1)

theorem foldSections_char (fs : List Char → Option (List Char)) (lines : List (List Char)) :
    ∀ (ss : List Nat) (cur : List (List Char)),
      cur.length = lines.length →
      List.Pairwise (· > ·) ss →
      (∀ s ∈ ss, ∀ k, k ≤ s + 1 → cur.getD k [] = lines.getD k []) →
      (ss.foldl (sectionStep fs) cur).length = cur.length
      ∧ (∀ s ∈ ss, sectionSuccess fs lines s = true →
          (ss.foldl (sectionStep fs) cur).getD (s + 1) [] = sectionNewLine fs lines s)
      ∧ (∀ i, (∀ s ∈ ss, ¬(sectionSuccess fs lines s = true ∧ i = s + 1)) →
          (ss.foldl (sectionStep fs) cur).getD i [] = cur.getD i []) := by
  intro ss
  induction ss with
  | nil =>
    intro cur _ _ _
    exact ⟨rfl, by simp, fun i _ => rfl⟩
  | cons s0 rest ih =>
    intro cur hlen hpw hag
    have hps := List.pairwise_cons.mp hpw
    rw [List.foldl_cons]
    have hstep := sectionStep_congr fs lines cur s0 hlen
      (hag s0 (List.mem_cons.mpr (Or.inl rfl)))
    have hlen' : (sectionStep fs cur s0).length = lines.length := by
      rw [hstep]; split
      · rw [List.length_set]; exact hlen
      · exact hlen
    have hag' : ∀ s ∈ rest, ∀ k, k ≤ s + 1 →
        (sectionStep fs cur s0).getD k [] = lines.getD k [] := by
      intro s hs k hk
      have hlt : s < s0 := hps.1 s hs
      rw [hstep]
      split
      · have hne : s0 + 1 ≠ k := by omega
        simp only [List.getD_eq_getElem?_getD, List.getElem?_set_ne hne]
        have := hag s (List.mem_cons.mpr (Or.inr hs)) k hk
        simpa [List.getD_eq_getElem?_getD] using this
      · exact hag s (List.mem_cons.mpr (Or.inr hs)) k hk
    obtain ⟨ihlen, ih1, ih2⟩ := ih (sectionStep fs cur s0) hlen' hps.2 hag'
    refine ⟨?_, ?_, ?_⟩
    · rw [ihlen, hstep]
      split
      · rw [List.length_set]
      · rfl
    · intro s hs hsucc
      rcases List.mem_cons.mp hs with rfl | hs
      · have hno : ∀ s' ∈ rest, ¬(sectionSuccess fs lines s' = true ∧ s + 1 = s' + 1) := by
          intro s' hs' hcon
          have := hps.1 s' hs'
          omega
        rw [ih2 (s + 1) hno, hstep, if_pos hsucc]
        have hlt : s + 1 < lines.length := by
          unfold sectionSuccess at hsucc
          rcases Bool.and_eq_true_iff.mp hsucc with ⟨hb, _⟩
          rcases Bool.and_eq_true_iff.mp hb with ⟨hlt', _⟩
          exact of_decide_eq_true hlt'
        simp [List.getD_eq_getElem?_getD, List.getElem?_set_self, hlen, hlt]
      · exact ih1 s hs hsucc
    · intro i hi
      have hi' : ∀ s ∈ rest, ¬(sectionSuccess fs lines s = true ∧ i = s + 1) :=
        fun s hs => hi s (List.mem_cons.mpr (Or.inr hs))
      rw [ih2 i hi', hstep]
      split
      · next hsucc =>
        have hne : s0 + 1 ≠ i := by
          intro heq
          exact hi s0 (List.mem_cons.mpr (Or.inl rfl)) ⟨hsucc, heq.symm⟩
        simp [List.getD_eq_getElem?_getD, List.getElem?_set_ne hne]
      · rfl

/-- C5: a snippet section whose referenced diagram file is missing (or
whose pattern header cannot be found or parsed) leaves its lines
unchanged; all other sections are still processed, independently; and
nothing outside the successfully processed sections' blank lines is
altered.  (The printed warnings are not modelled; the written lines
are.) -/
theorem add_python_snippets_spec (fs : List Char → Option (List Char))
    (lines : List (List Char)) :
    (add_python_snippets fs lines).length = lines.length
    ∧ (∀ s ∈ snippetSections lines, sectionSuccess fs lines s = true →
        (add_python_snippets fs lines).getD (s + 1) [] = sectionNewLine fs lines s)
    ∧ (∀ s ∈ snippetSections lines, sectionSuccess fs lines s = false →
        (add_python_snippets fs lines).getD (s + 1) [] = lines.getD (s + 1) [])
    ∧ (∀ i, (∀ s ∈ snippetSections lines, ¬(sectionSuccess fs lines s = true ∧ i = s + 1)) →
        (add_python_snippets fs lines).getD i [] = lines.getD i []) := by
  have hsorted : List.Pairwise (· < ·) (snippetSections lines) :=
    positionsFrom_sorted _ lines 0
  have hpw : List.Pairwise (· > ·) (snippetSections lines).reverse := by
    rw [List.pairwise_reverse]
    exact hsorted
  obtain ⟨h1, h2, h3⟩ := foldSections_char fs lines (snippetSections lines).reverse lines rfl
    hpw (by intro s _ k _; rfl)
  unfold add_python_snippets
  refine ⟨h1, ?_, ?_, ?_⟩
  · intro s hs hsucc
    exact h2 s (List.mem_reverse.mpr hs) hsucc
  · intro s hs hfail
    apply h3
    intro s' hs' hcon
    obtain ⟨hsucc', heq⟩ := hcon
    by_cases hss : s' = s
    · subst hss
      rw [hfail] at hsucc'
      exact Bool.noConfusion hsucc'
    · exact hss (by omega)
  · intro i hi
    exact h3 i (fun s hs => hi s (List.mem_reverse.mp hs))

/-- Closed instance of `add_python_snippets_spec`: on the fixture, the
present `foo_pattern.py` section is filled in, and the missing
`bar_pattern.py` section keeps its blank line. -/
theorem add_python_snippets_spec_witness :
    (add_python_snippets demoFs demoLines).getD 3 [] = sectionNewLine demoFs demoLines 2 ∧
    (add_python_snippets demoFs demoLines).getD 6 [] = demoLines.getD 6 [] :=
  ⟨(add_python_snippets_spec demoFs demoLines).2.1 2 (by decide) (by decide),
   (add_python_snippets_spec demoFs demoLines).2.2.1 5 (by decide) (by decide)⟩

/-- C4 (code bug): inside a known chapter, a fenced code block holding
box-drawing characters is kept in the output — only the image reference
after the heading is inserted — because the removal lookahead of the
first path starts at the opening fence line itself and its
`startswith('```')` break fires on the very first step, so
`is_ascii_diagram` is never true.  Evaluated on `asciiDoc`: the output
retains the whole block, and the dead lookahead indeed reports `false`
at the opening fence although the block contains `│`. -/
theorem replace_ascii_keeps_box_block :
    replace_ascii_diagrams asciiDoc =
      ["# Virtualized Infinite List with Dynamic Heights\n".toList,
       "\n".toList,
       diagText "virtuallist-architecture.png".toList,
       "```\n".toList,
       "│box│\n".toList,
       "```\n".toList] ∧
    asciiLook asciiDoc 2 = false ∧
    containsAnyOf boxChars1 (asciiDoc.getD 3 []) = true := by
  decide

/-- C8 (code bug): on the heading `## **Bold** intro` the converter
outputs `** /Bold/ intro`: the hash-to-asterisk structure and the
heading level are as claimed, but `**Bold**` does not become `*Bold*` —
the bold pass first produces `*Bold*` and the italic pass, run
afterwards on the same string, rewrites it to `/Bold/`, although the
source's own comment documents `**text** -> *text*`. -/
theorem convert_md_to_org_bold_lost :
    convert_md_to_org "## **Bold** intro".toList = "** /Bold/ intro".toList ∧
    convert_inline_formatting "**Bold** intro".toList = "/Bold/ intro".toList := by
  decide

example : convert_md_to_org "# [t](u) and `c`".toList = "* [[u][t]] and =c=".toList := by
  decide
